import Mathlib

/-!
Verification of the resumable streaming batch-processing engine of the
llmhaloc repository against its natural-language specification.

The development shallowly embeds the Python sources:

* `utils/data_handler.py` (203_nanf_java_control_flow/01_src_initial_llm_process):
  `stream_json_data`, `load_json_data`, `write_to_json`, `save_resume_point`,
  `is_model_completed`, `find_resume_point`, `add_failed_entry`.
* `main.py` (204_nanf_java_cross_script/01_src_initial_llm_process):
  `_process_entry`, `_process_entry_attempt`, `_handle_entry_error`,
  `process_model_streaming`.
* `utils/llm_processor.py` (204_nanf_java_cross_script/01_src_initial_llm_process):
  `interact_with_llm`, `ns_to_seconds`.
* `utils/json_processor.py` (204_nanf_java_cross_script/05_src_relevance_web_processing):
  `_normalize_decision`, `_process_json_object`, `_apply_user_decision`,
  `_extract_result`, `_try_json_extraction`, and the decision loop of
  `process_json_files`.
* `utils/time_estimator.py` (202_nanf_java_data_flow/07_src_function_llm_analysis):
  `TimeEstimator.get_estimates`, `_get_empty_estimates`,
  `_calculate_progress_percentage`.

Modelling conventions:

* Machine text is `List Char`; files are their character contents.
* Python exceptions are `Option`/`Except` failures (`none` / `.error`).
* The JSON fragment modelled covers null, booleans, integers,
  escape-free strings, arrays and objects.  Escape sequences, floats,
  `NaN`/`Infinity` and non-ASCII handling of Python's `json` module are
  outside the fragment; both the full-file parser and the streaming
  parser are restricted identically, so equivalence statements relate
  the same fragment on both sides.
* Wall-clock readings (`time.time()`) enter as explicit parameters.
-/

namespace LH

/-! ## JSON values

A JSON value as handled by Python's `json` module, restricted to the
fragment described in the header.  Strings are kept as `List Char`. -/

inductive Json where
  | null : Json
  | bool : Bool → Json
  | num : Int → Json
  | str : List Char → Json
  | arr : List Json → Json
  | obj : List (List Char × Json) → Json
deriving Inhabited

/-- Characters skipped by Python's `json` whitespace regex `[ \t\n\r]*`. -/
def isWs (c : Char) : Bool :=
  c = ' ' || c = '\t' || c = '\n' || c = '\r'

/-- Skip leading JSON whitespace (the `_w(s, idx).end()` steps of the
Python decoder; also models `str.lstrip` on the ASCII contents the
pipeline produces). -/
def skipWs : List Char → List Char
  | [] => []
  | c :: cs => if isWs c then skipWs cs else c :: cs

/-- Contents of a JSON string after the opening quote
(`json.decoder.scanstring` without escape support: a backslash makes the
input fall outside the modelled fragment). -/
def parseStrRest : List Char → Option (List Char × List Char)
  | [] => none
  | c :: cs =>
    if c = '"' then some ([], cs)
    else if c = '\\' then none
    else match parseStrRest cs with
      | some (s, r) => some (c :: s, r)
      | none => none

/-- Numeric value of a decimal digit character. -/
def digitVal (c : Char) : Nat := c.toNat - '0'.toNat

/-- Longest prefix of decimal digits, with the remainder. -/
def takeDigits : List Char → (List Char × List Char)
  | [] => ([], [])
  | c :: cs =>
    if c.isDigit then
      let p := takeDigits cs
      (c :: p.1, p.2)
    else ([], c :: cs)

/-- Value of a most-significant-first digit string. -/
def digitsToNat (ds : List Char) : Nat :=
  ds.foldl (fun a c => a * 10 + digitVal c) 0

/-- Parse a JSON unsigned integer literal, honouring the decoder's
`(-?(?:0|[1-9]\d*))` rule: a leading `0` is consumed alone. -/
def parseNat : List Char → Option (Nat × List Char)
  | [] => none
  | c :: cs =>
    if c = '0' then some (0, cs)
    else if c.isDigit then
      let p := takeDigits cs
      some (digitsToNat (c :: p.1), p.2)
    else none

/-! The decoder: `json.JSONDecoder.raw_decode` restricted to the
modelled fragment.  `parseVal fuel cs` parses one JSON value at the head
of `cs` (no leading whitespace, exactly like `raw_decode`) and returns
it with the unconsumed remainder.  The fuel bounds nesting depth; any
fuel of at least the input length is sufficient. -/

mutual

/-- One JSON value at the head of the input (`raw_decode`). -/
def parseVal : Nat → List Char → Option (Json × List Char)
  | 0, _ => none
  | _ + 1, [] => none
  | f + 1, c :: cs =>
    if c = 'n' then
      match cs with
      | 'u' :: 'l' :: 'l' :: r => some (.null, r)
      | _ => none
    else if c = 't' then
      match cs with
      | 'r' :: 'u' :: 'e' :: r => some (.bool true, r)
      | _ => none
    else if c = 'f' then
      match cs with
      | 'a' :: 'l' :: 's' :: 'e' :: r => some (.bool false, r)
      | _ => none
    else if c = '"' then
      match parseStrRest cs with
      | some (s, r) => some (.str s, r)
      | none => none
    else if c = '-' then
      match parseNat cs with
      | some (n, r) => some (.num (-(n : Int)), r)
      | none => none
    else if c.isDigit then
      match parseNat (c :: cs) with
      | some (n, r) => some (.num (n : Int), r)
      | none => none
    else if c = '[' then
      match skipWs cs with
      | ']' :: r => some (.arr [], r)
      | cs1 =>
        match parseVal f cs1 with
        | some (v, r) =>
          match parseArrRest f (skipWs r) with
          | some (vs, r2) => some (.arr (v :: vs), r2)
          | none => none
        | none => none
    else if c = '{' then
      match skipWs cs with
      | '}' :: r => some (.obj [], r)
      | cs1 =>
        match parseMember f cs1 with
        | some (kv, r) =>
          match parseObjRest f (skipWs r) with
          | some (kvs, r2) => some (.obj (kv :: kvs), r2)
          | none => none
        | none => none
    else none

/-- Array elements after the first: at `]` close, at `,` parse another
value (whitespace around tokens skipped as in `JSONArray`). -/
def parseArrRest : Nat → List Char → Option (List Json × List Char)
  | 0, _ => none
  | _ + 1, ']' :: r => some ([], r)
  | f + 1, ',' :: r =>
    match parseVal f (skipWs r) with
    | some (v, r1) =>
      match parseArrRest f (skipWs r1) with
      | some (vs, r2) => some (v :: vs, r2)
      | none => none
    | none => none
  | _ + 1, _ => none

/-- One `"key": value` object member (`JSONObject` body). -/
def parseMember : Nat → List Char → Option ((List Char × Json) × List Char)
  | 0, _ => none
  | f + 1, '"' :: cs =>
    match parseStrRest cs with
    | some (k, r) =>
      match skipWs r with
      | ':' :: r1 =>
        match parseVal f (skipWs r1) with
        | some (v, r2) => some ((k, v), r2)
        | none => none
      | _ => none
    | none => none
  | _ + 1, _ => none

/-- Object members after the first: at `}` close, at `,` parse another
member. -/
def parseObjRest : Nat → List Char → Option (List (List Char × Json) × List Char)
  | 0, _ => none
  | _ + 1, '}' :: r => some ([], r)
  | f + 1, ',' :: r =>
    match parseMember f (skipWs r) with
    | some (kv, r1) =>
      match parseObjRest f (skipWs r1) with
      | some (kvs, r2) => some (kv :: kvs, r2)
      | none => none
    | none => none
  | _ + 1, _ => none

end

/-- `json.loads` / `json.load`: skip leading whitespace, decode one
value, require only whitespace after it. -/
def pyLoads (content : List Char) : Option Json :=
  match parseVal (content.length + 1) (skipWs content) with
  | some (v, rest) => if skipWs rest = [] then some v else none
  | none => none

/-! ## Serialization: `json.dumps(value, indent=4)` -/

/-- Character of a decimal digit. -/
def digitChar (d : Nat) : Char := Char.ofNat ('0'.toNat + d)

/-- Decimal rendering of a natural number (Python `repr`). -/
def natChars (n : Nat) : List Char :=
  if n = 0 then ['0'] else (Nat.digits 10 n).reverse.map digitChar

/-- Decimal rendering of an integer (Python `repr`). -/
def intChars : Int → List Char
  | .ofNat n => natChars n
  | .negSucc m => '-' :: natChars (m + 1)

/-- Indentation prefix for nesting level `lvl` under `indent=4`. -/
def indentChars (lvl : Nat) : List Char := List.replicate (4 * lvl) ' '

mutual

/-- `json.dumps(v, indent=4)` at nesting level `lvl` (the top-level call
uses `lvl = 0`).  Non-empty containers put each item on its own line at
level `lvl + 1`, exactly as Python's encoder does with `indent=4` and
default separators. -/
def dumpsVal : Nat → Json → List Char
  | _, .null => ['n', 'u', 'l', 'l']
  | _, .bool true => ['t', 'r', 'u', 'e']
  | _, .bool false => ['f', 'a', 'l', 's', 'e']
  | _, .num n => intChars n
  | _, .str s => '"' :: s ++ ['"']
  | _, .arr [] => ['[', ']']
  | lvl, .arr (x :: xs) =>
    '[' :: '\n' :: indentChars (lvl + 1) ++ dumpsVal (lvl + 1) x ++
      dumpsItems (lvl + 1) xs ++ '\n' :: indentChars lvl ++ [']']
  | _, .obj [] => ['{', '}']
  | lvl, .obj (m :: ms) =>
    '{' :: '\n' :: indentChars (lvl + 1) ++ dumpsMember (lvl + 1) m ++
      dumpsMembers (lvl + 1) ms ++ '\n' :: indentChars lvl ++ ['}']

/-- Array items after the first, each preceded by `",\n" ++ indent`. -/
def dumpsItems : Nat → List Json → List Char
  | _, [] => []
  | lvl, x :: xs => ',' :: '\n' :: indentChars lvl ++ dumpsVal lvl x ++ dumpsItems lvl xs

/-- One `"key": value` member (default key separator `": "`). -/
def dumpsMember : Nat → List Char × Json → List Char
  | lvl, (k, v) => '"' :: k ++ '"' :: ':' :: ' ' :: dumpsVal lvl v

/-- Object members after the first. -/
def dumpsMembers : Nat → List (List Char × Json) → List Char
  | _, [] => []
  | lvl, m :: ms => ',' :: '\n' :: indentChars lvl ++ dumpsMember lvl m ++ dumpsMembers lvl ms

end

/-! ## `data_handler.stream_json_data` and `load_json_data` -/

/-- Body of the `while content:` loop of `stream_json_data`
(`data_handler.py` lines 56-75).  `pf` is the decoder fuel, the first
`Nat` argument bounds the number of iterations; `acc` holds the objects
yielded so far (most recent first).  An `.error` result models the
re-raised `json.JSONDecodeError`. -/
def streamLoop (pf : Nat) : Nat → List Char → List Json → Except String (List Json)
  | 0, _, _ => .error "out of fuel"
  | f + 1, content, acc =>
    match content with
    | [] => .ok acc.reverse
    | _ =>
      match parseVal pf content with
      | some (obj, rest) =>
        let c1 := skipWs rest
        let c2 := match c1 with
          | ',' :: t => skipWs t
          | _ => c1
        match c2 with
        | ']' :: _ => .ok (obj :: acc).reverse
        | _ => streamLoop pf f c2 (obj :: acc)
      | none =>
        match content with
        | ']' :: _ => .ok acc.reverse
        | _ => .error "decode error"

/-- `stream_json_data` (`data_handler.py` lines 18-86) on the file
contents: fail unless the first character is `[` (the `file.read(1)`
check), then repeatedly `raw_decode` one object, skipping whitespace and
a separating comma, stopping at the closing `]`.  The result is the list
of yielded objects. -/
def stream_json_data (content : List Char) : Except String (List Json) :=
  match content with
  | '[' :: rest => streamLoop (content.length + 1) (content.length + 1) (skipWs rest) []
  | _ => .error "not an array"

/-- `load_json_data` (`data_handler.py` lines 89-118):
`list(stream_json_data(file_path))` — it drains the streaming reader. -/
def load_json_data (content : List Char) : Except String (List Json) :=
  stream_json_data content

/-! ## `data_handler.write_to_json` -/

/-- `write_to_json` (`data_handler.py` lines 121-196) as a transformation
of the result-file contents.  `none` models the raised `ValueError`
(invalid array format).  The serialized form of `new_entry` is
`json.dumps(new_entry, indent=4)`.  An absent file and an empty file take
the same branch, so both are the `[]` contents case. -/
def write_to_json (content : List Char) (new_entry : Json) : Option (List Char) :=
  let entry_json := dumpsVal 0 new_entry
  if content = [] then
    some ('[' :: '\n' :: entry_json ++ ['\n', ']'])
  else
    match content.getLast? with
    | some ']' =>
      match content.head? with
      | some '[' =>
        let body := content.dropLast
        let sep := if body.getLast? = some '[' then ['\n'] else [',', '\n']
        some (body ++ sep ++ entry_json ++ ['\n', ']'])
      | _ => none
    | _ => none

/-- Result-file contents after a sequence of `write_to_json` appends
starting from a nonexistent (or empty) file. -/
def write_sequence (entries : List Json) : Option (List Char) :=
  entries.foldlM write_to_json []

/-- The cleared-array contents `'[\n]'` written by `find_resume_point`
(`data_handler.py` line 477) when a result file exists without a resume
point. -/
def cleared_result_file : List Char := ['[', '\n', ']']

/-- The shape every non-empty result file produced by `write_to_json`
has: `"[\n" e1 "\n,\n" e2 ... "\n]"`. -/
def joinEntries : List (List Char) → List Char
  | [] => []
  | [e] => e
  | e :: es => e ++ '\n' :: ',' :: '\n' :: joinEntries es

/-- Rendering of a whole result file holding the given entries. -/
def renderFile (es : List (List Char)) : List Char :=
  '[' :: '\n' :: joinEntries es ++ ['\n', ']']

/-- The part of a writer-produced file after the first entry: every
further entry preceded by the writer separator `"\n,\n"`. -/
def joinTail : List Json → List Char
  | [] => []
  | x :: xs => '\n' :: ',' :: '\n' :: (dumpsVal 0 x ++ joinTail xs)

/-! ## `json_processor.py`: decisions and two-stage consensus review -/

/-- A decision value at the web boundary: Python `bool`, `int` or `str`
(the `Union[int, bool, str]` annotation of `set_user_decision`). -/
inductive PyVal where
  | bool : Bool → PyVal
  | int : Int → PyVal
  | str : List Char → PyVal
deriving Repr, DecidableEq, Inhabited

/-- Trim JSON-style whitespace from both ends. -/
def trimWs (cs : List Char) : List Char :=
  ((skipWs ((skipWs cs).reverse)).reverse)

/-- Python `int(s)` on a string: surrounding whitespace allowed, an
optional sign, then decimal digits; anything else raises `ValueError`
(`none`).  Underscore digit grouping is not modelled. -/
def pyIntOfStr (cs : List Char) : Option Int :=
  match trimWs cs with
  | [] => none
  | '-' :: ds =>
    if ds ≠ [] ∧ ds.all Char.isDigit then some (-(digitsToNat ds : Int)) else none
  | '+' :: ds =>
    if ds ≠ [] ∧ ds.all Char.isDigit then some (digitsToNat ds : Int) else none
  | ds =>
    if ds.all Char.isDigit then some (digitsToNat ds : Int) else none

/-- `JsonProcessor._normalize_decision` (`json_processor.py` lines
35-52): `True ↦ 1`, `False ↦ 0`, otherwise `int(decision)` with the
original value returned when the conversion raises. -/
def normalize_decision : PyVal → PyVal
  | .bool true => .int 1
  | .bool false => .int 0
  | .int n => .int n
  | .str s =>
    match pyIntOfStr s with
    | some n => .int n
    | none => .str s

/-- Python `==` between a decision value and an `int` analysis label
(a `str` never equals an `int`; `True == 1` and `False == 0`). -/
def pyEqInt : PyVal → Int → Bool
  | .int n, a => n = a
  | .bool b, a => (if b then (1 : Int) else 0) = a
  | .str _, _ => false

/-- Python `dict` lookup on parsed JSON members: later duplicate keys
override earlier ones, so the last binding wins. -/
def lookupLast (k : List Char) (ms : List (List Char × Json)) : Option Json :=
  match ms.reverse.find? (fun m => m.1 = k) with
  | some m => some m.2
  | none => none

/-- `JsonProcessor._try_json_extraction` (`json_processor.py` lines
453-505): parse the text as JSON; require a `"result"` member holding a
string; map `"vulnerable"/"not vulnerable"/"not relevant"` (after
`.lower()`) to `1`, `0`, `-1`; every other outcome — decode error, missing
member, non-string member (whose `.lower()` raises and is caught), or an
unrecognized value — yields `None`. -/
def try_json_extraction (text : List Char) : Option Int :=
  match pyLoads text with
  | some (.obj ms) =>
    match lookupLast ("result".data) ms with
    | some (.str s) =>
      let r := s.map Char.toLower
      if r = "vulnerable".data then some 1
      else if r = "not vulnerable".data then some 0
      else if r = "not relevant".data then some (-1)
      else none
    | some _ => none
    | none => none
  | some _ => none
  | none => none

/-- `JsonProcessor._extract_result` (`json_processor.py` lines 408-451):
empty text yields `None`, otherwise JSON extraction only (regex
extraction was removed). -/
def extract_result (text : List Char) : Option Int :=
  if text = [] then none else try_json_extraction text

/-- The review-relevant fields `_process_json_object` installs on a
record (the record's payload fields are untouched and omitted). -/
structure ReviewObj where
  analysis_label : Option Int
  analysis_label_parsed : Bool
  review_stage : Option Int
  review_reason : Option (List Char)
  relevance_label : Option PyVal
  user_decision_round1 : Option PyVal
  user_decision_round2 : Option PyVal
deriving Repr, DecidableEq, Inhabited

/-- `JsonProcessor._process_json_object` (`json_processor.py` lines
264-299): parse the automatic decision from `relevance_analysis` and
reset the review state to stage 1. -/
def process_json_object (relevance_analysis : List Char) : ReviewObj :=
  let result := extract_result relevance_analysis
  { analysis_label := result
    analysis_label_parsed := result.isSome
    review_stage := some 1
    review_reason := none
    relevance_label := none
    user_decision_round1 := none
    user_decision_round2 := none }

/-- `JsonProcessor._apply_user_decision` (`json_processor.py` lines
301-346).  At stage 1 a non-null automatic label equal to the (again
normalized) decision finalizes immediately; otherwise the record moves
to stage 2, where any decision is final regardless of the automatic
label. -/
def apply_user_decision (obj : ReviewObj) (decision : PyVal) : ReviewObj :=
  let dv := normalize_decision decision
  if obj.review_stage = some 1 then
    match obj.analysis_label with
    | some a =>
      if pyEqInt dv a then
        { obj with user_decision_round1 := some dv, relevance_label := some dv,
                   review_stage := none, review_reason := none }
      else
        { obj with user_decision_round1 := some dv, review_stage := some 2,
                   review_reason := some ("mismatch".data) }
    | none =>
      { obj with user_decision_round1 := some dv, review_stage := some 2,
                 review_reason := some ("unparsed".data) }
  else
    { obj with user_decision_round2 := some dv, relevance_label := some dv,
               review_stage := none, review_reason := none }

/-- `JsonProcessor.set_user_decision` (`json_processor.py` lines 74-104)
stores the normalized decision in the single-slot mailbox. -/
def set_user_decision (decision : PyVal) : PyVal :=
  normalize_decision decision

/-- The `while obj.get("relevance_label") is None:` loop of
`process_json_files` (`json_processor.py` lines 200-231), with the
queued decisions supplied as a list (each one passes through
`set_user_decision` before being consumed).  `none` models the loop
blocking forever because no further decision arrives. -/
def review_loop : ReviewObj → List PyVal → Option ReviewObj
  | obj, [] => if obj.relevance_label.isSome then some obj else none
  | obj, d :: rest =>
    if obj.relevance_label.isSome then some obj
    else review_loop (apply_user_decision obj (set_user_decision d)) rest

/-! ## `time_estimator.py`: `TimeEstimator` estimates -/

/-- The fields of a `TimeEstimator` read by `get_estimates`, with the
wall-clock difference `time.time() - self.start_time` and the current
`datetime.now()` as explicit inputs.  Durations are exact rationals
(Python float rounding is not modelled). -/
structure TimeEstimatorState where
  processing_times : List Rat
  current_index : Nat
  total_entries : Nat
  remaining_entries : Int
  elapsed : Rat
  now : Rat
deriving Repr, DecidableEq, Inhabited

/-- The estimate snapshot returned by `TimeEstimator.get_estimates`.
`std_dev_sq` holds the square of `statistics.stdev` (the square root of
a rational is irrational in general; the square is zero exactly when the
standard deviation is). -/
structure TimeEstimates where
  avg_time_per_entry : Rat
  median_time_per_entry : Rat
  weighted_avg_time : Rat
  std_dev_sq : Rat
  elapsed_time : Rat
  estimated_remaining_time : Rat
  estimated_total_time : Rat
  estimated_completion_time : Option Rat
  progress_percentage : Rat
  entries_completed : Nat
  entries_total : Nat
  entries_remaining : Int
  entries_per_minute : Rat
deriving Repr, DecidableEq, Inhabited

/-- `TimeEstimator._calculate_progress_percentage` (`time_estimator.py`
lines 460-467): `round((current_index / total_entries) * 100, 2)`.
`none` models the `ZeroDivisionError` raised when `total_entries = 0`;
the two-decimal float rounding is not modelled. -/
def calculate_progress_percentage (current_index total_entries : Nat) : Option Rat :=
  if total_entries = 0 then none
  else some ((current_index : Rat) / (total_entries : Rat) * 100)

/-- `TimeEstimator._get_empty_estimates` (`time_estimator.py` lines
360-381): every time statistic is zero, `estimated_completion_time` is
`None`, and the progress/entry counters reflect the current cursor. -/
def get_empty_estimates (st : TimeEstimatorState) : Option TimeEstimates :=
  match calculate_progress_percentage st.current_index st.total_entries with
  | none => none
  | some p => some
    { avg_time_per_entry := 0
      median_time_per_entry := 0
      weighted_avg_time := 0
      std_dev_sq := 0
      elapsed_time := 0
      estimated_remaining_time := 0
      estimated_total_time := 0
      estimated_completion_time := none
      progress_percentage := p
      entries_completed := st.current_index
      entries_total := st.total_entries
      entries_remaining := st.remaining_entries
      entries_per_minute := 0 }

/-- `statistics.mean`. -/
def pyMean (l : List Rat) : Rat := l.sum / (l.length : Rat)

/-- `statistics.median`: midpoint of the sorted list, averaging the two
central values for even lengths. -/
def pyMedian (l : List Rat) : Rat :=
  let s := l.mergeSort (fun a b => decide (a ≤ b))
  let n := s.length
  if n % 2 = 1 then s.getD (n / 2) 0
  else (s.getD (n / 2 - 1) 0 + s.getD (n / 2) 0) / 2

/-- Weighted average of `_calculate_time_statistics` (`time_estimator.py`
lines 383-403): with more than five samples, the last five weighted
`[0.1, 0.15, 0.2, 0.25, 0.3]`; otherwise the plain mean. -/
def weightedAvgTime (times : List Rat) (avg : Rat) : Rat :=
  if times.length > 5 then
    let recent := times.drop (times.length - 5)
    let weights : List Rat := [1/10, 3/20, 1/5, 1/4, 3/10]
    ((recent.zip weights).map (fun p => p.1 * p.2)).sum
  else avg

/-- Square of `statistics.stdev` (sample variance); the source takes
`stdev(...) if len > 1 else 0`. -/
def stdDevSq (times : List Rat) : Rat :=
  if times.length > 1 then
    let m := pyMean times
    (times.map (fun t => (t - m) ^ 2)).sum / ((times.length : Rat) - 1)
  else 0

/-- `TimeEstimator.get_estimates` (`time_estimator.py` lines 428-458):
the zero-history branch returns `_get_empty_estimates`; otherwise the
statistics of `_calculate_time_statistics` and the projections of
`_calculate_time_estimates`.  `none` models an uncaught exception. -/
def get_estimates (st : TimeEstimatorState) : Option TimeEstimates :=
  if st.processing_times = [] then get_empty_estimates st
  else
    let avg := pyMean st.processing_times
    let med := pyMedian st.processing_times
    let w := weightedAvgTime st.processing_times avg
    let remaining_est := w * (st.remaining_entries : Rat)
    let epm := if st.elapsed > 0 then (st.current_index : Rat) / st.elapsed * 60 else 0
    match calculate_progress_percentage st.current_index st.total_entries with
    | none => none
    | some p => some
      { avg_time_per_entry := avg
        median_time_per_entry := med
        weighted_avg_time := w
        std_dev_sq := stdDevSq st.processing_times
        elapsed_time := st.elapsed
        estimated_remaining_time := remaining_est
        estimated_total_time := st.elapsed + remaining_est
        estimated_completion_time := some (st.now + remaining_est)
        progress_percentage := p
        entries_completed := st.current_index
        entries_total := st.total_entries
        entries_remaining := st.remaining_entries
        entries_per_minute := epm }

/-! ## Batch driver

`process_model_streaming` and its helpers from `main.py`
(204_nanf_java_cross_script/01_src_initial_llm_process) over the resume
store of `data_handler.py`.  Records are identified by their composite
identity key (`id`, `sub_id`, `code_id`), an abstract type `K`; the LLM
call is the opaque collaborator `behavior : K → Option LlmResponse`
(`none` = the call raises).  Timing side effects are ignored; file
contents live at the record level here, the byte level being covered by
the `write_to_json` theorems. -/

/-- The Ollama response fields read by `interact_with_llm`
(durations in nanoseconds). -/
structure LlmResponse where
  content : List Char
  total_duration : Nat
  load_duration : Nat
  prompt_eval_count : Nat
  prompt_eval_duration : Nat
  eval_count : Nat
  eval_duration : Nat
deriving Repr, DecidableEq, Inhabited

/-- `ns_to_seconds` (`llm_processor.py` lines 32-42):
`round(ns / 1e9, 3)`.  Rounding is to the nearest thousandth; the
half-to-even tie rule of Python's `round` is not distinguished. -/
def ns_to_seconds (ns : Nat) : Rat :=
  ((round ((ns : Rat) / 1000000000 * 1000) : Int) : Rat) / 1000

/-- One output record as written by the driver: the identity key plus
the result fields installed by `interact_with_llm`. -/
structure OutEntry (K : Type) where
  key : K
  response : List Char
  total_duration : Rat
  load_duration : Rat
  prompt_eval_count : Nat
  prompt_eval_duration : Rat
  eval_count : Nat
  eval_duration : Rat
deriving Repr, DecidableEq, Inhabited

/-- The entry built from a successful LLM response
(`llm_processor.py` lines 381-392). -/
def mkLlmEntry {K : Type} (k : K) (r : LlmResponse) : OutEntry K :=
  { key := k
    response := r.content
    total_duration := ns_to_seconds r.total_duration
    load_duration := ns_to_seconds r.load_duration
    prompt_eval_count := r.prompt_eval_count
    prompt_eval_duration := ns_to_seconds r.prompt_eval_duration
    eval_count := r.eval_count
    eval_duration := ns_to_seconds r.eval_duration }

/-- The sentinel entry with empty response and zeroed numeric fields
(`main.py` lines 568-579, identically `llm_processor.py` lines
342-353). -/
def sentinel_entry {K : Type} (k : K) : OutEntry K :=
  { key := k
    response := []
    total_duration := 0
    load_duration := 0
    prompt_eval_count := 0
    prompt_eval_duration := 0
    eval_count := 0
    eval_duration := 0 }

/-- One entry of the `failed_entries` ledger.  `retry_count` is `none`
when the dict key is absent (the insertion of `add_failed_entry` when no
resume file existed yet omits it); readers use `.get("retry_count", 0)`. -/
structure FailedEntry (K : Type) where
  key : K
  error : List Char
  retry_count : Option Nat
deriving Repr, DecidableEq, Inhabited

/-- The persisted resume-point file.  Fields are `Option` because
`add_failed_entry` can create a minimal file holding only the ledger. -/
structure ResumeData (K : Type) where
  last_processed : Option K
  index : Option Nat
  total : Option Nat
  progress_percentage : Option Rat
  completed : Option Bool
  failed_entries : List (FailedEntry K)
deriving Repr, DecidableEq, Inhabited

/-- The driver-visible file system for one (model, job): the result
file's entries, the resume-point file, the per-entry error files of
`_process_entry` (`<log_dir>/errors/...`), the `.retry` files of
`create_retry_file` (`<log_dir>/retries/...`), plus a log of every
`ollama.chat` invocation for counting attempts. -/
structure DriverState (K : Type) where
  output : List (OutEntry K)
  resume : Option (ResumeData K)
  error_files : List K
  retry_files : List (K × Nat)
  llm_calls : List K
deriving Repr, DecidableEq, Inhabited

/-- A fresh job: no files exist. -/
def initial_state (K : Type) : DriverState K :=
  { output := [], resume := none, error_files := [], retry_files := [], llm_calls := [] }

/-- The failed-entry merge of `save_resume_point` (`data_handler.py`
lines 246-267): an already-present key gets its retry count bumped in
place, a new key is appended with `retry_count = 1`. -/
def merge_failed {K : Type} [DecidableEq K]
    (existing new_failed : List (FailedEntry K)) : List (FailedEntry K) :=
  new_failed.foldl
    (fun acc fe =>
      if acc.any (fun e => e.key = fe.key) then
        acc.map (fun e =>
          if e.key = fe.key then { e with retry_count := some (e.retry_count.getD 0 + 1) } else e)
      else acc ++ [{ fe with retry_count := some 1 }])
    existing

/-- The existing failed-entry ledger as read back from the resume file
(`save_resume_point` lines 234-244: an unreadable or absent file yields
the empty list). -/
def current_ledger {K : Type} (st : DriverState K) : List (FailedEntry K) :=
  match st.resume with
  | some rd => rd.failed_entries
  | none => []

/-- `save_resume_point` (`data_handler.py` lines 219-295).  `none`
models the `ZeroDivisionError` of the `progress_percentage` computation
when `total = 0`; otherwise the resume file is replaced, preserving (and
merging) the failed-entries ledger. -/
def save_resume_point {K : Type} [DecidableEq K] (entry : K) (index total : Nat)
    (new_failed : List (FailedEntry K)) (st : DriverState K) : Option (DriverState K) :=
  let existing := current_ledger st
  let merged := if new_failed.isEmpty then existing else merge_failed existing new_failed
  if total = 0 then none
  else some { st with resume := some (
    { last_processed := some entry
      index := some index
      total := some total
      progress_percentage := some ((index : Rat) / (total : Rat) * 100)
      completed := some (decide (index ≥ total))
      failed_entries := merged } : ResumeData K) }

/-- `add_failed_entry` (`data_handler.py` lines 505-579).  With no
resume file a minimal one is created whose ledger entry carries no
`retry_count` key; otherwise an existing key gets `retry_count + 1` and
a fresh error message, and a new key is appended with `retry_count = 1`. -/
def add_failed_entry {K : Type} [DecidableEq K] (k : K) (err : List Char)
    (st : DriverState K) : DriverState K :=
  match st.resume with
  | none =>
    { st with resume := some (
      { last_processed := none, index := none, total := none,
        progress_percentage := none, completed := none,
        failed_entries := [{ key := k, error := err, retry_count := none }] } : ResumeData K) }
  | some rd =>
    let fs := rd.failed_entries
    let fs' :=
      if fs.any (fun e => e.key = k) then
        fs.map (fun e =>
          if e.key = k then { e with retry_count := some (e.retry_count.getD 0 + 1), error := err }
          else e)
      else fs ++ [{ key := k, error := err, retry_count := some 1 }]
    { st with resume := some { rd with failed_entries := fs' } }

/-- `is_model_completed` (`data_handler.py` lines 356-439), first
component of the returned pair: true exactly when the persisted
`completed` flag is set (absent ↦ `False`) and no ledger entry has
`retry_count` below the hard-coded `max_retries = 3`. -/
def is_model_completed {K : Type} (st : DriverState K) : Bool :=
  match st.resume with
  | none => false
  | some rd =>
    let completedFlag := rd.completed.getD false
    let retryable := (rd.failed_entries.filter (fun e => e.retry_count.getD 0 < 3)).length
    completedFlag && retryable == 0

/-- `find_resume_point` (`data_handler.py` lines 442-485): a stored
index within `0 ≤ index ≤ len` is used directly; otherwise, if a
non-empty result file exists, it is cleared (the byte-level contents
then being `cleared_result_file`) and processing restarts at 0. -/
def find_resume_point {K : Type} (data_len : Nat) (st : DriverState K) :
    Nat × DriverState K :=
  let stored : Option Nat := match st.resume with
    | some rd => rd.index
    | none => none
  match stored with
  | some i =>
    if i ≤ data_len then (i, st)
    else if st.output.isEmpty then (0, st) else (0, { st with output := [] })
  | none =>
    if st.output.isEmpty then (0, st) else (0, { st with output := [] })

/-- The retry-file guard at the top of `interact_with_llm`
(`llm_processor.py` lines 316-357): true when a `.retry` file exists for
the entry and records `retry_count ≥ max_retries`. -/
def retry_file_exhausted {K : Type} [DecidableEq K] (retry_files : List (K × Nat))
    (k : K) (max_retries : Nat) : Bool :=
  match retry_files.find? (fun p => decide (p.1 = k)) with
  | some p => decide (p.2 ≥ max_retries)
  | none => false

/-- `interact_with_llm` (`llm_processor.py` lines 289-396) with the
Ollama call abstracted as `behavior`.  If a `.retry` file for the entry
records `retry_count ≥ max_retries`, the sentinel entry is returned
without calling the model; otherwise the call is logged and either
yields the response entry or raises (`.error`). -/
def interact_with_llm {K : Type} [DecidableEq K] (behavior : K → Option LlmResponse)
    (k : K) (max_retries : Nat) (st : DriverState K) :
    Except (List Char) (OutEntry K) × DriverState K :=
  if retry_file_exhausted st.retry_files k max_retries then (Except.ok (sentinel_entry k), st)
  else
    let st' := { st with llm_calls := st.llm_calls ++ [k] }
    match behavior k with
    | some resp => (Except.ok (mkLlmEntry k resp), st')
    | none => (Except.error ("llm call failed".data), st')

/-- `_process_entry_attempt` (`main.py` lines 434-502): call the LLM,
append the result to the output file, save the resume point at
`index + 1`, and delete the entry's error file; any exception
propagates. -/
def process_entry_attempt {K : Type} [DecidableEq K] (behavior : K → Option LlmResponse)
    (k : K) (idx total max_retries : Nat) (st : DriverState K) :
    Except (List Char) Unit × DriverState K :=
  match interact_with_llm behavior k max_retries st with
  | (.error e, st') => (.error e, st')
  | (.ok entry, st') =>
    let st2 := { st' with output := st'.output ++ [entry] }
    match save_resume_point k (idx + 1) total [] st2 with
    | none => (.error ("division by zero".data), st2)
    | some st3 => (.ok (), { st3 with error_files := st3.error_files.filter (fun e => e ≠ k) })

/-- `_handle_entry_error` (`main.py` lines 504-592): write the error
file, record the failure in the ledger, and once `retry_count ≥
max_retries` append the sentinel entry to the output file. -/
def handle_entry_error {K : Type} [DecidableEq K] (k : K) (err : List Char)
    (retry_count max_retries : Nat) (st : DriverState K) : DriverState K :=
  let st1 := { st with error_files :=
    if st.error_files.contains k then st.error_files else st.error_files ++ [k] }
  let st2 := add_failed_entry k err st1
  if retry_count ≥ max_retries then { st2 with output := st2.output ++ [sentinel_entry k] }
  else st2

/-- The `while retry_count <= max_retries and not success:` loop of
`_process_entry` (`main.py` lines 621-645).  The fuel argument equals
`max_retries + 1 - retry_count`, which bounds the passes since
`retry_count` grows by one per failed attempt and the loop exits as soon
as `retry_count ≥ max_retries`. -/
def process_entry_go {K : Type} [DecidableEq K] (behavior : K → Option LlmResponse)
    (k : K) (idx total max_retries : Nat) :
    Nat → Nat → DriverState K → DriverState K
  | 0, _, st => st
  | f + 1, retry_count, st =>
    match process_entry_attempt behavior k idx total max_retries st with
    | (.ok _, st') => st'
    | (.error e, st') =>
      let rc := retry_count + 1
      let st'' := handle_entry_error k e rc max_retries st'
      if rc ≥ max_retries then st''
      else process_entry_go behavior k idx total max_retries f rc st''

/-- `_process_entry` (`main.py` lines 594-646): process one record with
immediate bounded retries, ending in either a successful write or a
sentinel write, and always returning control to the batch loop. -/
def process_entry {K : Type} [DecidableEq K] (behavior : K → Option LlmResponse)
    (k : K) (idx total max_retries : Nat) (st : DriverState K) : DriverState K :=
  process_entry_go behavior k idx total max_retries (max_retries + 1) 0 st

/-- The `for idx, entry in enumerate(stream_json_data(...)):` loop of
`process_model_streaming` (`main.py` lines 779-787): entries with
`idx < start_idx` are skipped, every other entry goes through
`_process_entry`. -/
def stream_entries {K : Type} [DecidableEq K] (behavior : K → Option LlmResponse)
    (total max_retries start_idx : Nat) :
    List K → Nat → DriverState K → DriverState K
  | [], _, st => st
  | r :: rs, idx, st =>
    if idx < start_idx then stream_entries behavior total max_retries start_idx rs (idx + 1) st
    else stream_entries behavior total max_retries start_idx rs (idx + 1)
      (process_entry behavior r idx total max_retries st)

/-- `process_model_streaming` (`main.py` lines 736-790): skip the job if
`is_model_completed`, otherwise resolve the resume index, process the
remaining records, and report completion (`_report_completion_status`
returns the `is_model_completed` verdict). -/
def process_model_streaming {K : Type} [DecidableEq K] (behavior : K → Option LlmResponse)
    (data : List K) (max_retries : Nat) (st : DriverState K) : Bool × DriverState K :=
  let total := data.length
  if is_model_completed st then (true, st)
  else
    let p := find_resume_point total st
    let st' := stream_entries behavior total max_retries p.1 data 0 p.2
    (is_model_completed st', st')

/-! ## Support definitions used by the theorem statements -/

/-- A string within the modelled fragment: no quote and no backslash,
so its serialization needs no escaping and parses back verbatim. -/
def strOK (s : List Char) : Bool :=
  s.all (fun c => c ≠ '"' && c ≠ '\\')

mutual

/-- A JSON value within the modelled fragment (all strings `strOK`). -/
def jsonOK : Json → Bool
  | .null => true
  | .bool _ => true
  | .num _ => true
  | .str s => strOK s
  | .arr xs => jsonOKList xs
  | .obj ms => jsonOKMembers ms

def jsonOKList : List Json → Bool
  | [] => true
  | x :: xs => jsonOK x && jsonOKList xs

def jsonOKMembers : List (List Char × Json) → Bool
  | [] => true
  | m :: ms => (strOK m.1 && jsonOK m.2) && jsonOKMembers ms

end

mutual

/-- Structural size of a JSON value: an upper bound on the decoder fuel
its serialization needs. -/
def jsize : Json → Nat
  | .null => 1
  | .bool _ => 1
  | .num _ => 1
  | .str _ => 1
  | .arr xs => 1 + jsizeList xs
  | .obj ms => 1 + jsizeMembers ms

def jsizeList : List Json → Nat
  | [] => 1
  | x :: xs => 1 + jsize x + jsizeList xs

def jsizeMembers : List (List Char × Json) → Nat
  | [] => 1
  | m :: ms => 1 + jsize m.2 + jsizeMembers ms

end

/-- A tail that cannot extend a numeric literal: empty, or starting
with a non-digit.  Serialized containers separate values by `\n`, `,`
and `]`/`}`, all non-digits. -/
def goodTail : List Char → Prop
  | [] => True
  | c :: _ => c.isDigit = false

/-- Stage-1 consensus test of `_apply_user_decision`: the automatic
label is non-null and (Python-)equals the normalized decision. -/
def consensus_at_stage1 (a : Option Int) (d : PyVal) : Bool :=
  match a with
  | some a0 => pyEqInt (normalize_decision d) a0
  | none => false

/-- The output entry a record ends up with under `_process_entry`: the
LLM result on success, the sentinel after exhausted retries. -/
def entry_for {K : Type} (behavior : K → Option LlmResponse) (k : K) : OutEntry K :=
  match behavior k with
  | some resp => mkLlmEntry k resp
  | none => sentinel_entry k

/-- The `ollama.chat` invocations of one fresh pass over the data with
`max_retries = 3`: one call per succeeding record, three (the retry
bound) per permanently failing record. -/
def calls_log3 {K : Type} (behavior : K → Option LlmResponse) : List K → List K
  | [] => []
  | r :: rs => List.replicate (if (behavior r).isSome then 1 else 3) r ++ calls_log3 behavior rs

/-- The resume file `_process_entry_attempt` leaves behind after a
successful record: cursor advanced, ledger untouched. -/
def success_resume {K : Type} (k : K) (index total : Nat)
    (ledger : List (FailedEntry K)) : ResumeData K :=
  { last_processed := some k
    index := some index
    total := some total
    progress_percentage := some ((index : Rat) / (total : Rat) * 100)
    completed := some (decide (index ≥ total))
    failed_entries := ledger }

/-- The state of a job killed right after its `k`-th record was fully
processed (output appended and resume point saved): the driver loop has
run over exactly the first `k` records. -/
def partial_run {K : Type} [DecidableEq K] (behavior : K → Option LlmResponse)
    (data : List K) (k : Nat) : DriverState K :=
  stream_entries behavior data.length 3 0 (data.take k) 0 (initial_state K)

/-- Concrete two-record scenario: record `0` succeeds, record `1`
always raises. -/
def c7_behavior : Nat → Option LlmResponse := fun k =>
  if k = 0 then
    some { content := "ok".data, total_duration := 0, load_duration := 0,
           prompt_eval_count := 0, prompt_eval_duration := 0,
           eval_count := 0, eval_duration := 0 }
  else none

/-- First run of the two-record scenario from a fresh job. -/
def c7_run1 : DriverState Nat :=
  (process_model_streaming c7_behavior [0, 1] 3 (initial_state Nat)).2

/-- Second run of the same job, resumed from the first run's files. -/
def c7_run2 : DriverState Nat :=
  (process_model_streaming c7_behavior [0, 1] 3 c7_run1).2

/-! # Theorems -/

/-- `_normalize_decision` is idempotent: it returns an `int` or a
non-numeric `str`, both of which it maps to themselves. -/
theorem normalize_decision_idem (d : PyVal) :
    normalize_decision (normalize_decision d) = normalize_decision d := by
  cases d with
  | bool b => cases b <;> rfl
  | int n => rfl
  | str s =>
    cases h : pyIntOfStr s with
    | some n => simp [normalize_decision, h]
    | none => simp [normalize_decision, h]

/-- Claim C8 counterexample: the boundary string `"true"` is not
normalized to the canonical integer `1` — Python's `int("true")` raises
`ValueError` and `_normalize_decision` returns the string unchanged. -/
theorem claim_c8_counterexample :
    normalize_decision (PyVal.str ("true".data)) = PyVal.str ("true".data) ∧
    normalize_decision (PyVal.str ("true".data)) ≠ PyVal.int 1 := by
  decide

/-- Claim C8 (amended): booleans `True`/`False` normalize to `1`/`0`,
integers to themselves, and numeric strings to their integer value; but
non-numeric strings — including `"true"` and `"false"` — are returned
unchanged rather than mapped to `1`/`0`. -/
theorem claim_c8 :
    normalize_decision (PyVal.bool true) = PyVal.int 1 ∧
    normalize_decision (PyVal.bool false) = PyVal.int 0 ∧
    (∀ n : Int, normalize_decision (PyVal.int n) = PyVal.int n) ∧
    (∀ s n, pyIntOfStr s = some n → normalize_decision (PyVal.str s) = PyVal.int n) ∧
    (∀ s, pyIntOfStr s = none → normalize_decision (PyVal.str s) = PyVal.str s) := by
  refine ⟨rfl, rfl, fun n => rfl, fun s n h => ?_, fun s h => ?_⟩ <;>
    simp [normalize_decision, h]

/-- Witness for claim C8: the numeric string `"42"` and the non-numeric
string `"false"` at concrete inputs. -/
theorem claim_c8_witness :
    (pyIntOfStr ("42".data) = some 42 ∧
      normalize_decision (PyVal.str ("42".data)) = PyVal.int 42) ∧
    (pyIntOfStr ("false".data) = none ∧
      normalize_decision (PyVal.str ("false".data)) = PyVal.str ("false".data)) := by
  have h1 : pyIntOfStr ("42".data) = some 42 := by decide
  have h2 : pyIntOfStr ("false".data) = none := by decide
  exact ⟨⟨h1, claim_c8.2.2.2.1 _ _ h1⟩, ⟨h2, claim_c8.2.2.2.2 _ h2⟩⟩

/-- Claim C9 counterexample: with an empty history and
`total_entries = 0`, `get_estimates` raises `ZeroDivisionError` inside
`_calculate_progress_percentage` (modelled as `none`), so the call is
not error-free for every value of `total_entries`. -/
theorem claim_c9_counterexample :
    get_estimates { processing_times := [], current_index := 5, total_entries := 0,
                    remaining_entries := -5, elapsed := 7, now := 3 } = none := by
  rfl

/-- Claim C9 (amended): for every `TimeEstimator` with an empty list of
observed processing times and `total_entries ≠ 0`, `get_estimates`
returns (without error) the empty snapshot whose average, median,
weighted-average, standard-deviation, elapsed, remaining and total time
fields are all zero, for every `current_index`. -/
theorem claim_c9 (ci total : Nat) (h : total ≠ 0) (rem : Int) (el nw : Rat) :
    get_estimates { processing_times := [], current_index := ci, total_entries := total,
                    remaining_entries := rem, elapsed := el, now := nw } =
      some { avg_time_per_entry := 0, median_time_per_entry := 0, weighted_avg_time := 0,
             std_dev_sq := 0, elapsed_time := 0, estimated_remaining_time := 0,
             estimated_total_time := 0, estimated_completion_time := none,
             progress_percentage := (ci : Rat) / (total : Rat) * 100,
             entries_completed := ci, entries_total := total, entries_remaining := rem,
             entries_per_minute := 0 } := by
  simp [get_estimates, get_empty_estimates, calculate_progress_percentage, h]

/-- Witness for claim C9 at `current_index = 3`, `total_entries = 7`. -/
theorem claim_c9_witness :
    (7 : Nat) ≠ 0 ∧
    get_estimates { processing_times := [], current_index := 3, total_entries := 7,
                    remaining_entries := 4, elapsed := 5, now := 9 } =
      some { avg_time_per_entry := 0, median_time_per_entry := 0, weighted_avg_time := 0,
             std_dev_sq := 0, elapsed_time := 0, estimated_remaining_time := 0,
             estimated_total_time := 0, estimated_completion_time := none,
             progress_percentage := (3 : Rat) / (7 : Rat) * 100,
             entries_completed := 3, entries_total := 7, entries_remaining := 4,
             entries_per_minute := 0 } :=
  ⟨by decide, claim_c9 3 7 (by decide) 4 5 9⟩

/-- A finalized record leaves the decision loop untouched, whatever is
still queued. -/
theorem review_loop_finalized (obj : ReviewObj) (ds : List PyVal)
    (h : obj.relevance_label.isSome = true) : review_loop obj ds = some obj := by
  cases ds <;> simp [review_loop, h]

/-- Claim C2: for a record entering review with automatic decision
`A = extract_result text` (possibly null), the finalized
`relevance_label` is the (normalized) stage-1 human decision exactly
when `A` is non-null and equals it; otherwise the record advances to
stage 2 and the finalized label is the (normalized) stage-2 human
decision, regardless of `A`.  Further queued decisions are never
consumed after finalization. -/
theorem claim_c2 (text : List Char) (d1 d2 : PyVal) (ds : List PyVal) :
    ((review_loop (process_json_object text) (d1 :: d2 :: ds)).map ReviewObj.relevance_label =
      some (some (if consensus_at_stage1 (extract_result text) d1 = true
                  then normalize_decision d1 else normalize_decision d2))) ∧
    (consensus_at_stage1 (extract_result text) d1 = false →
      (apply_user_decision (process_json_object text) (set_user_decision d1)).review_stage =
        some 2) := by
  cases ha : extract_result text with
  | none =>
    constructor
    · simp [review_loop, process_json_object, apply_user_decision, set_user_decision,
            consensus_at_stage1, normalize_decision_idem, review_loop_finalized, ha]
    · intro _
      simp [process_json_object, apply_user_decision, set_user_decision, ha]
  | some a0 =>
    cases hc : pyEqInt (normalize_decision d1) a0 with
    | true =>
      constructor
      · simp [review_loop, process_json_object, apply_user_decision, set_user_decision,
              consensus_at_stage1, normalize_decision_idem, ha, hc]
      · intro hfalse
        simp [consensus_at_stage1, ha, hc] at hfalse
    | false =>
      constructor
      · simp [review_loop, process_json_object, apply_user_decision, set_user_decision,
              consensus_at_stage1, normalize_decision_idem, review_loop_finalized, ha, hc]
      · intro _
        simp [process_json_object, apply_user_decision, set_user_decision,
              normalize_decision_idem, ha, hc]

/-- Witness for claim C2: automatic decision `1` (parsed from a JSON
verdict), stage-1 human decision `0` (mismatch), stage-2 human decision
`1`. -/
theorem claim_c2_witness :
    ((review_loop (process_json_object ("\x7b\"result\": \"vulnerable\"\x7d".data))
        [PyVal.int 0, PyVal.int 1]).map ReviewObj.relevance_label =
      some (some (if consensus_at_stage1
                    (extract_result ("\x7b\"result\": \"vulnerable\"\x7d".data)) (PyVal.int 0) = true
                  then normalize_decision (PyVal.int 0) else normalize_decision (PyVal.int 1)))) ∧
    (apply_user_decision (process_json_object ("\x7b\"result\": \"vulnerable\"\x7d".data))
        (set_user_decision (PyVal.int 0))).review_stage = some 2 := by
  have h := claim_c2 ("\x7b\"result\": \"vulnerable\"\x7d".data) (PyVal.int 0) (PyVal.int 1) []
  exact ⟨h.1, h.2 (by decide)⟩

/-- Claim C5: every resume state persisted by `save_resume_point`
(which requires `total ≠ 0`, lest `progress_percentage` raise) is read
back by `is_model_completed` as completed exactly when `index ≥ total`
and no ledger entry has `retry_count` below the default
`max_retries = 3`. -/
theorem claim_c5 {K : Type} [DecidableEq K] (entry : K) (index total : Nat)
    (new_failed : List (FailedEntry K)) (st : DriverState K) (h : total ≠ 0) :
    ∃ st' rd, save_resume_point entry index total new_failed st = some st' ∧
      st'.resume = some rd ∧
      (is_model_completed st' = true ↔
        (total ≤ index ∧ ∀ e ∈ rd.failed_entries, 3 ≤ e.retry_count.getD 0)) := by
  refine ⟨{ st with resume := some (
    { last_processed := some entry, index := some index, total := some total,
      progress_percentage := some ((index : Rat) / (total : Rat) * 100),
      completed := some (decide (index ≥ total)),
      failed_entries := if new_failed.isEmpty then current_ledger st
        else merge_failed (current_ledger st) new_failed } : ResumeData K) }, _, ?_, rfl, ?_⟩
  · simp [save_resume_point, h]
  simp only [is_model_completed, Option.getD_some, Bool.and_eq_true, beq_iff_eq,
    List.length_eq_zero, List.filter_eq_nil_iff, decide_eq_true_eq]
  constructor
  · rintro ⟨h1, h2⟩
    exact ⟨h1, fun e he => le_of_not_lt (by simpa using h2 e he)⟩
  · rintro ⟨h1, h2⟩
    exact ⟨h1, fun e he => by simpa using not_lt_of_le (h2 e he)⟩

/-- Witness for claim C5: a two-record job saved at `index = total = 2`
with an empty ledger. -/
theorem claim_c5_witness :
    (2 : Nat) ≠ 0 ∧
    ∃ st' rd, save_resume_point (0 : Nat) 2 2 [] (initial_state Nat) = some st' ∧
      st'.resume = some rd ∧
      (is_model_completed st' = true ↔
        (2 ≤ 2 ∧ ∀ e ∈ rd.failed_entries, 3 ≤ e.retry_count.getD 0)) :=
  ⟨by decide, claim_c5 0 2 2 [] (initial_state Nat) (by decide)⟩

/-- Claim C7 (code bug): in the two-record scenario, the first run
leaves record `1` with a written sentinel and the retry ledger at
`retry_count = 3 = max_retries` (the claim's premise); yet the second
run of the same job attempts the record's processing callback three
more times — the `.retry`-file guard of `interact_with_llm` reads
`<log_dir>/retries/...` while `_process_entry` only writes
`<log_dir>/errors/...` — and appends a second sentinel, so the output
holds two entries for that identity key. -/
theorem claim_c7 :
    (c7_run1.output.map (fun e => e.key) = [0, 1] ∧
      c7_run1.output.getLast? = some (sentinel_entry 1)) ∧
    (c7_run1.resume.map (fun rd => rd.failed_entries.map (fun e => (e.key, e.retry_count))) =
      some [(1, some 3)]) ∧
    c7_run2.llm_calls = [0, 1, 1, 1, 1, 1, 1] ∧
    (c7_run2.output.filter (fun e => e.key == 1)).length = 2 := by
  refine ⟨⟨?_, ?_⟩, ?_, ?_, ?_⟩ <;> rfl

/-- `raw_decode` fails on a leading comma (no JSON value starts with
`,`). -/
theorem parseVal_comma (f : Nat) (rest : List Char) :
    parseVal f (',' :: rest) = none := by
  cases f with
  | zero => rfl
  | succ f => rfl

/-- Claim C10 (implicit): appending to a result file whose contents are
exactly the cleared-array form `'[\n]'` written by `find_resume_point`
takes the non-empty branch of `write_to_json` (the character before `]`
is `\n`, not `[`), inserts a leading comma, and leaves contents that no
longer parse as JSON. -/
theorem claim_c10 (e : Json) :
    write_to_json cleared_result_file e =
      some ('[' :: '\n' :: ',' :: '\n' :: (dumpsVal 0 e ++ ['\n', ']'])) ∧
    pyLoads ('[' :: '\n' :: ',' :: '\n' :: (dumpsVal 0 e ++ ['\n', ']'])) = none := by
  constructor
  · simp [write_to_json, cleared_result_file]
  · have hskip : skipWs ('\n' :: ',' :: '\n' :: (dumpsVal 0 e ++ ['\n', ']'])) =
        ',' :: '\n' :: (dumpsVal 0 e ++ ['\n', ']']) := by
      simp [skipWs, isWs]
    simp [pyLoads, parseVal, skipWs, isWs, hskip, parseVal_comma]

/-! ### Driver stepping lemmas -/

/-- `add_failed_entry` only rewrites the resume file. -/
theorem add_failed_entry_output {K : Type} [DecidableEq K] (k : K) (err : List Char)
    (st : DriverState K) : (add_failed_entry k err st).output = st.output := by
  cases h : st.resume <;> simp [add_failed_entry, h]

theorem add_failed_entry_error_files {K : Type} [DecidableEq K] (k : K) (err : List Char)
    (st : DriverState K) : (add_failed_entry k err st).error_files = st.error_files := by
  cases h : st.resume <;> simp [add_failed_entry, h]

theorem add_failed_entry_retry_files {K : Type} [DecidableEq K] (k : K) (err : List Char)
    (st : DriverState K) : (add_failed_entry k err st).retry_files = st.retry_files := by
  cases h : st.resume <;> simp [add_failed_entry, h]

theorem add_failed_entry_llm_calls {K : Type} [DecidableEq K] (k : K) (err : List Char)
    (st : DriverState K) : (add_failed_entry k err st).llm_calls = st.llm_calls := by
  cases h : st.resume <;> simp [add_failed_entry, h]

/-- `_handle_entry_error` appends the sentinel exactly when the retry
budget is exhausted, and touches neither the retry files nor the call
log. -/
theorem handle_entry_error_fields {K : Type} [DecidableEq K] (k : K) (err : List Char)
    (rc mr : Nat) (st : DriverState K) :
    (handle_entry_error k err rc mr st).output =
      st.output ++ (if mr ≤ rc then [sentinel_entry k] else []) ∧
    (handle_entry_error k err rc mr st).retry_files = st.retry_files ∧
    (handle_entry_error k err rc mr st).llm_calls = st.llm_calls := by
  by_cases hrc : mr ≤ rc <;>
    simp [handle_entry_error, hrc, add_failed_entry_output, add_failed_entry_retry_files,
          add_failed_entry_llm_calls]

/-- A raising LLM call: with no `.retry` files, `interact_with_llm`
logs the call and propagates the exception. -/
theorem interact_with_llm_fail {K : Type} [DecidableEq K] (behavior : K → Option LlmResponse)
    (k : K) (mr : Nat) (st : DriverState K)
    (hrf : st.retry_files = []) (hb : behavior k = none) :
    interact_with_llm behavior k mr st =
      (Except.error ("llm call failed".data), { st with llm_calls := st.llm_calls ++ [k] }) := by
  simp [interact_with_llm, retry_file_exhausted, hrf, hb]

/-- A succeeding LLM call: with no `.retry` files, `interact_with_llm`
logs the call and returns the response entry. -/
theorem interact_with_llm_ok {K : Type} [DecidableEq K] (behavior : K → Option LlmResponse)
    (k : K) (mr : Nat) (st : DriverState K) (resp : LlmResponse)
    (hrf : st.retry_files = []) (hb : behavior k = some resp) :
    interact_with_llm behavior k mr st =
      (Except.ok (mkLlmEntry k resp), { st with llm_calls := st.llm_calls ++ [k] }) := by
  simp [interact_with_llm, retry_file_exhausted, hrf, hb]

/-- A failing attempt leaves only the call log changed. -/
theorem process_entry_attempt_fail {K : Type} [DecidableEq K] (behavior : K → Option LlmResponse)
    (k : K) (idx total mr : Nat) (st : DriverState K)
    (hrf : st.retry_files = []) (hb : behavior k = none) :
    process_entry_attempt behavior k idx total mr st =
      (Except.error ("llm call failed".data), { st with llm_calls := st.llm_calls ++ [k] }) := by
  simp [process_entry_attempt, interact_with_llm_fail behavior k mr st hrf hb]

/-- A successful attempt appends the entry, advances the resume cursor
to `idx + 1` preserving the ledger, and clears the entry's error file. -/
theorem process_entry_attempt_ok {K : Type} [DecidableEq K] (behavior : K → Option LlmResponse)
    (k : K) (idx total mr : Nat) (st : DriverState K) (resp : LlmResponse)
    (hrf : st.retry_files = []) (hb : behavior k = some resp) (ht : total ≠ 0) :
    process_entry_attempt behavior k idx total mr st =
      (Except.ok (), { output := st.output ++ [mkLlmEntry k resp],
                       resume := some (success_resume k (idx + 1) total (current_ledger st)),
                       error_files := st.error_files.filter (fun e => e ≠ k),
                       retry_files := st.retry_files,
                       llm_calls := st.llm_calls ++ [k] }) := by
  simp [process_entry_attempt, interact_with_llm_ok behavior k mr st resp hrf hb,
        save_resume_point, ht, success_resume, current_ledger]

/-- `_process_entry` on a succeeding record: one attempt. -/
theorem process_entry_success {K : Type} [DecidableEq K] (behavior : K → Option LlmResponse)
    (k : K) (idx total : Nat) (st : DriverState K) (resp : LlmResponse)
    (hrf : st.retry_files = []) (hb : behavior k = some resp) (ht : total ≠ 0) :
    process_entry behavior k idx total 3 st =
      { output := st.output ++ [mkLlmEntry k resp],
        resume := some (success_resume k (idx + 1) total (current_ledger st)),
        error_files := st.error_files.filter (fun e => e ≠ k),
        retry_files := st.retry_files,
        llm_calls := st.llm_calls ++ [k] } := by
  simp [process_entry, process_entry_go,
        process_entry_attempt_ok behavior k idx total 3 st resp hrf hb ht]

/-- `_process_entry` on an always-raising record with `max_retries = 3`:
exactly three attempts, then exactly one sentinel appended; the `.retry`
files are untouched. -/
theorem process_entry_failure {K : Type} [DecidableEq K] (behavior : K → Option LlmResponse)
    (k : K) (idx total : Nat) (st : DriverState K)
    (hrf : st.retry_files = []) (hb : behavior k = none) :
    (process_entry behavior k idx total 3 st).output = st.output ++ [sentinel_entry k] ∧
    (process_entry behavior k idx total 3 st).retry_files = st.retry_files ∧
    (process_entry behavior k idx total 3 st).llm_calls = st.llm_calls ++ [k, k, k] := by
  have main : ∀ (f rc : Nat) (st : DriverState K), st.retry_files = [] →
      rc + f = 4 → rc < 3 →
      (process_entry_go behavior k idx total 3 f rc st).output =
        st.output ++ [sentinel_entry k] ∧
      (process_entry_go behavior k idx total 3 f rc st).retry_files = st.retry_files ∧
      (process_entry_go behavior k idx total 3 f rc st).llm_calls =
        st.llm_calls ++ List.replicate (3 - rc) k := by
    intro f
    induction f with
    | zero =>
      intro rc st _ hsum hlt
      omega
    | succ f ih =>
      intro rc st hrf0 hsum hlt
      simp only [process_entry_go,
        process_entry_attempt_fail behavior k idx total 3 st hrf0 hb]
      obtain ⟨ho, hr, hc⟩ := handle_entry_error_fields k ("llm call failed".data) (rc + 1) 3
        ({ st with llm_calls := st.llm_calls ++ [k] })
      by_cases hge : rc + 1 ≥ 3
      · have hrc2 : rc = 2 := by omega
        simp only [hge, if_pos]
        subst hrc2
        refine ⟨?_, ?_, ?_⟩
        · rw [ho]
          simp
        · rw [hr]
        · rw [hc]
          simp [List.replicate]
      · simp only [hge, if_neg, not_false_iff]
        have hrB : (handle_entry_error k ("llm call failed".data) (rc + 1) 3
            ({ st with llm_calls := st.llm_calls ++ [k] })).retry_files = [] := by
          rw [hr]
          exact hrf0
        obtain ⟨iho, ihr, ihc⟩ := ih (rc + 1)
          (handle_entry_error k ("llm call failed".data) (rc + 1) 3
            ({ st with llm_calls := st.llm_calls ++ [k] }))
          hrB (by omega) (by omega)
        refine ⟨?_, ?_, ?_⟩
        · rw [iho, ho, if_neg (show ¬ (3 : Nat) ≤ rc + 1 by omega)]
          simp
        · rw [ihr, hr]
        · rw [ihc, hc]
          have : (3 : Nat) - rc = (3 - (rc + 1)) + 1 := by omega
          rw [this]
          simp [List.replicate_succ]
  have h := main 4 0 st hrf (by omega) (by omega)
  simpa [process_entry, List.replicate] using h

/-- Records entirely before the resume index are skipped without any
state change. -/
theorem stream_entries_skipped {K : Type} [DecidableEq K] (behavior : K → Option LlmResponse)
    (total mr s : Nat) (rs : List K) :
    ∀ (idx : Nat) (st : DriverState K), idx + rs.length ≤ s →
      stream_entries behavior total mr s rs idx st = st := by
  induction rs with
  | nil => intro idx st _; rfl
  | cons r rs ih =>
    intro idx st h
    have hlt : idx < s := by simp at h; omega
    simp only [stream_entries, if_pos hlt]
    exact ih (idx + 1) st (by simp at h ⊢; omega)

/-- Once the cursor has reached the resume index, the loop behaves as if
there were no resume index at all. -/
theorem stream_entries_noskip {K : Type} [DecidableEq K] (behavior : K → Option LlmResponse)
    (total mr s : Nat) (rs : List K) :
    ∀ (idx : Nat) (st : DriverState K), s ≤ idx →
      stream_entries behavior total mr s rs idx st =
        stream_entries behavior total mr 0 rs idx st := by
  induction rs with
  | nil => intro idx st _; rfl
  | cons r rs ih =>
    intro idx st h
    simp only [stream_entries, if_neg (show ¬ idx < s by omega),
      if_neg (show ¬ idx < 0 by omega)]
    exact ih (idx + 1) _ (by omega)

/-- The streaming loop splits over list concatenation. -/
theorem stream_entries_append {K : Type} [DecidableEq K] (behavior : K → Option LlmResponse)
    (total mr s : Nat) (rs1 rs2 : List K) :
    ∀ (idx : Nat) (st : DriverState K),
      stream_entries behavior total mr s (rs1 ++ rs2) idx st =
        stream_entries behavior total mr s rs2 (idx + rs1.length)
          (stream_entries behavior total mr s rs1 idx st) := by
  induction rs1 with
  | nil => intro idx st; simp [stream_entries]
  | cons r rs ih =>
    intro idx st
    simp only [List.cons_append, stream_entries, List.length_cons, List.append_eq]
    by_cases hlt : idx < s
    · rw [if_pos hlt, if_pos hlt, ih,
        show idx + 1 + rs.length = idx + (rs.length + 1) from by omega]
    · rw [if_neg hlt, if_neg hlt, ih,
        show idx + 1 + rs.length = idx + (rs.length + 1) from by omega]

/-- A pass of the streaming loop in which every record succeeds: the
processed entries are appended in order, the resume file ends at the
last record with the cursor advanced past it and the ledger untouched,
and one LLM call is made per record. -/
theorem stream_all_success {K : Type} [DecidableEq K] (behavior : K → Option LlmResponse)
    (total : Nat) (ht : total ≠ 0) (rs : List K) :
    ∀ (idx : Nat) (st : DriverState K),
      (∀ r ∈ rs, (behavior r).isSome = true) → st.retry_files = [] →
      ∃ ef, stream_entries behavior total 3 0 rs idx st =
        { output := st.output ++ rs.map (entry_for behavior),
          resume := match rs.getLast? with
            | none => st.resume
            | some r => some (success_resume r (idx + rs.length) total (current_ledger st)),
          error_files := ef,
          retry_files := st.retry_files,
          llm_calls := st.llm_calls ++ rs } := by
  induction rs with
  | nil =>
    intro idx st _ _
    exact ⟨st.error_files, by simp [stream_entries]⟩
  | cons r rs ih =>
    intro idx st hall hrf
    obtain ⟨resp, hresp⟩ := Option.isSome_iff_exists.mp (hall r (by simp))
    have hstep := process_entry_success behavior r idx total st resp hrf hresp ht
    simp only [stream_entries, if_neg (show ¬ idx < 0 by omega), hstep]
    obtain ⟨ef, hrest⟩ := ih (idx + 1)
      ({ output := st.output ++ [mkLlmEntry r resp],
         resume := some (success_resume r (idx + 1) total (current_ledger st)),
         error_files := st.error_files.filter (fun e => e ≠ r),
         retry_files := st.retry_files,
         llm_calls := st.llm_calls ++ [r] })
      (fun x hx => hall x (by simp [hx])) hrf
    refine ⟨ef, ?_⟩
    rw [hrest]
    cases rs with
    | nil =>
      simp [entry_for, hresp, success_resume, current_ledger]
    | cons r2 rs2 =>
      have hcl : current_ledger
          ({ output := st.output ++ [mkLlmEntry r resp],
             resume := some (success_resume r (idx + 1) total (current_ledger st)),
             error_files := st.error_files.filter (fun e => e ≠ r),
             retry_files := st.retry_files,
             llm_calls := st.llm_calls ++ [r] } : DriverState K) = current_ledger st := by
        simp [current_ledger, success_resume]
      simp only [List.getLast?_cons_cons, List.map_cons, List.length_cons]
      cases h2 : (r2 :: rs2).getLast? with
      | none => simp at h2
      | some rl =>
        simp [hcl, entry_for, hresp,
          show idx + 1 + (rs2.length + 1) = idx + (rs2.length + 1 + 1) from by omega]
        rfl

/-- A pass of the streaming loop with arbitrary per-record outcomes
(`max_retries = 3`): one output entry per record — the LLM result or the
sentinel — and one or three calls per record. -/
theorem stream_mixed {K : Type} [DecidableEq K] (behavior : K → Option LlmResponse)
    (total : Nat) (ht : total ≠ 0) (rs : List K) :
    ∀ (idx : Nat) (st : DriverState K), st.retry_files = [] →
      (stream_entries behavior total 3 0 rs idx st).output =
        st.output ++ rs.map (entry_for behavior) ∧
      (stream_entries behavior total 3 0 rs idx st).retry_files = st.retry_files ∧
      (stream_entries behavior total 3 0 rs idx st).llm_calls =
        st.llm_calls ++ calls_log3 behavior rs := by
  induction rs with
  | nil => intro idx st _; simp [stream_entries, calls_log3]
  | cons r rs ih =>
    intro idx st hrf
    simp only [stream_entries, if_neg (show ¬ idx < 0 by omega)]
    cases hb : behavior r with
    | some resp =>
      have hstep := process_entry_success behavior r idx total st resp hrf hb ht
      rw [hstep]
      have hrf2 : ({ output := st.output ++ [mkLlmEntry r resp],
                     resume := some (success_resume r (idx + 1) total (current_ledger st)),
                     error_files := st.error_files.filter (fun e => e ≠ r),
                     retry_files := st.retry_files,
                     llm_calls := st.llm_calls ++ [r] } : DriverState K).retry_files = [] := hrf
      obtain ⟨iho, ihr, ihc⟩ := ih (idx + 1) _ hrf2
      rw [iho, ihr, ihc]
      simp [entry_for, hb, calls_log3]
    | none =>
      obtain ⟨fo, fr, fc⟩ := process_entry_failure behavior r idx total st hrf hb
      have hrf2 : (process_entry behavior r idx total 3 st).retry_files = [] := by
        rw [fr]; exact hrf
      obtain ⟨iho, ihr, ihc⟩ := ih (idx + 1) _ hrf2
      rw [iho, ihr, ihc, fo, fr, fc]
      simp [entry_for, hb, calls_log3, List.replicate]

/-- After a pass with arbitrary per-record outcomes whose last record
succeeds, the resume file stores the cursor one past that record (the
cursor is written only by the success path, so the final success pins
it), with some ledger accumulated from the earlier failures. -/
theorem stream_mixed_resume {K : Type} [DecidableEq K] (behavior : K → Option LlmResponse)
    (total : Nat) (ht : total ≠ 0) :
    ∀ (rs : List K) (r : K) (idx : Nat) (st : DriverState K),
      st.retry_files = [] → rs.getLast? = some r → (behavior r).isSome = true →
      ∃ L, (stream_entries behavior total 3 0 rs idx st).resume =
        some (success_resume r (idx + rs.length) total L) := by
  intro rs
  induction rs with
  | nil => intro r idx st _ hlast _; simp at hlast
  | cons x rs' ih =>
    intro r idx st hrf hlast hsucc
    simp only [stream_entries, if_neg (show ¬ idx < 0 from by omega)]
    cases rs' with
    | nil =>
      have hr : x = r := by simpa using hlast
      subst hr
      obtain ⟨resp, hresp⟩ := Option.isSome_iff_exists.mp hsucc
      rw [process_entry_success behavior x idx total st resp hrf hresp ht]
      exact ⟨current_ledger st, by simp [stream_entries]⟩
    | cons y ys =>
      have hlast' : (y :: ys).getLast? = some r := by
        simpa [List.getLast?_cons_cons] using hlast
      cases hb : behavior x with
      | some resp =>
        rw [process_entry_success behavior x idx total st resp hrf hb ht]
        obtain ⟨L, hL⟩ := ih r (idx + 1)
          ({ output := st.output ++ [mkLlmEntry x resp],
             resume := some (success_resume x (idx + 1) total (current_ledger st)),
             error_files := st.error_files.filter (fun e => e ≠ x),
             retry_files := st.retry_files,
             llm_calls := st.llm_calls ++ [x] })
          hrf hlast' hsucc
        refine ⟨L, ?_⟩
        rw [hL]
        simp only [List.length_cons]
        rw [show idx + 1 + (ys.length + 1) = idx + (ys.length + 1 + 1) from by omega]
      | none =>
        obtain ⟨fo, fr, fc⟩ := process_entry_failure behavior x idx total st hrf hb
        have hrf2 : (process_entry behavior x idx total 3 st).retry_files = [] := by
          rw [fr]; exact hrf
        obtain ⟨L, hL⟩ := ih r (idx + 1) _ hrf2 hlast' hsucc
        refine ⟨L, ?_⟩
        rw [hL]
        simp only [List.length_cons]
        rw [show idx + 1 + (ys.length + 1) = idx + (ys.length + 1 + 1) from by omega]

/-- Claim C6: processing a fresh job with `max_retries = 3` produces
exactly one output entry per input record — the LLM result for a
succeeding record, the sentinel (empty `response`, all numeric fields 0)
for a record whose callback always raises — and the call log shows one
attempt per succeeding record and exactly three (≤ `max_retries + 1`)
per permanently failing record; a failing record never aborts the pass,
which always reaches the end of the data. -/
theorem claim_c6 {K : Type} [DecidableEq K] (behavior : K → Option LlmResponse)
    (data : List K) :
    (process_model_streaming behavior data 3 (initial_state K)).2.output =
      data.map (entry_for behavior) ∧
    (process_model_streaming behavior data 3 (initial_state K)).2.llm_calls =
      calls_log3 behavior data ∧
    (∀ k : K, (sentinel_entry k).response = [] ∧ (sentinel_entry k).total_duration = 0 ∧
      (sentinel_entry k).load_duration = 0 ∧ (sentinel_entry k).prompt_eval_count = 0 ∧
      (sentinel_entry k).prompt_eval_duration = 0 ∧ (sentinel_entry k).eval_count = 0 ∧
      (sentinel_entry k).eval_duration = 0) := by
  refine ⟨?_, ?_, fun k => ⟨rfl, rfl, rfl, rfl, rfl, rfl, rfl⟩⟩ <;>
  · cases data with
    | nil => rfl
    | cons r rs =>
      have ht : (r :: rs).length ≠ 0 := by simp
      have h := stream_mixed behavior (r :: rs).length ht (r :: rs) 0 (initial_state K) rfl
      simp only [process_model_streaming, is_model_completed, initial_state,
        find_resume_point, Bool.false_eq_true, if_neg]
      simp only [List.isEmpty_nil, if_pos]
      obtain ⟨h1, _, h3⟩ := h
      first
      | exact h1.trans (by simp [initial_state])
      | exact h3.trans (by simp [initial_state])

/-- Running the loop with resume index `k ≤ |l|` is running it without
a resume index over the records from `k` on. -/
theorem stream_entries_resume_split {K : Type} [DecidableEq K]
    (behavior : K → Option LlmResponse) (total mr : Nat) (l : List K) (k : Nat)
    (st : DriverState K) (hk : k ≤ l.length) :
    stream_entries behavior total mr k l 0 st =
      stream_entries behavior total mr 0 (l.drop k) k st := by
  have hlen : (l.take k).length = k := by
    simp [List.length_take]
    omega
  conv_lhs => rw [show l = l.take k ++ l.drop k from (List.take_append_drop k l).symm]
  rw [stream_entries_append,
    stream_entries_skipped behavior total mr k (l.take k) 0 st (by rw [hlen]; omega),
    Nat.zero_add, hlen]
  exact stream_entries_noskip behavior total mr k (l.drop k) k st (by omega)

/-- Claim C1: resume idempotence.  For a job of `N` records with
arbitrary per-record outcomes (records may succeed or permanently
fail), killing the process right after record `k` (`0 < k < N`) has
been fully processed — output appended and resume state saved, i.e.
its processing ended in the successful write that stores resume index
`k`; failures write only the sentinel and the ledger — and re-running
the job to completion yields exactly the same output file — the same
`N` records, by identity key, in the same order — as an uninterrupted
run, with no duplicate and no missing record. -/
theorem claim_c1 {K : Type} [DecidableEq K] (behavior : K → Option LlmResponse)
    (data : List K) (k : Nat)
    (hk0 : 0 < k) (hkN : k < data.length)
    (hksucc : ∀ r, (data.take k).getLast? = some r → (behavior r).isSome = true) :
    (process_model_streaming behavior data 3 (partial_run behavior data k)).2.output =
      (process_model_streaming behavior data 3 (initial_state K)).2.output ∧
    (process_model_streaming behavior data 3 (initial_state K)).2.output =
      data.map (entry_for behavior) := by
  have ht : data.length ≠ 0 := by omega
  have hfresh : (process_model_streaming behavior data 3 (initial_state K)).2.output =
      data.map (entry_for behavior) := by
    obtain ⟨h1, _, _⟩ := stream_mixed behavior data.length ht data 0 (initial_state K) rfl
    simp only [process_model_streaming, is_model_completed, initial_state,
      find_resume_point, Bool.false_eq_true, if_neg]
    simp only [List.isEmpty_nil, if_pos]
    exact h1.trans (by simp [initial_state])
  refine ⟨?_, hfresh⟩
  have hlen : (data.take k).length = k := by
    simp [List.length_take]
    omega
  obtain ⟨rl, hgl⟩ : ∃ rl, (data.take k).getLast? = some rl := by
    cases hg : (data.take k).getLast? with
    | none =>
      exfalso
      cases htk : data.take k with
      | nil => rw [htk] at hlen; simp at hlen; omega
      | cons a l => rw [htk] at hg; simp at hg
    | some r => exact ⟨r, rfl⟩
  have hsucc_rl : (behavior rl).isSome = true := hksucc rl hgl
  have hPo : (partial_run behavior data k).output =
      (data.take k).map (entry_for behavior) := by
    have h := (stream_mixed behavior data.length ht (data.take k) 0 (initial_state K) rfl).1
    simpa [partial_run, initial_state] using h
  have hPr : (partial_run behavior data k).retry_files = [] := by
    have h := (stream_mixed behavior data.length ht (data.take k) 0 (initial_state K) rfl).2.1
    simpa [partial_run, initial_state] using h
  obtain ⟨L, hPresume⟩ := stream_mixed_resume behavior data.length ht (data.take k) rl 0
    (initial_state K) rfl hgl hsucc_rl
  rw [hlen, Nat.zero_add] at hPresume
  have hPresume' : (partial_run behavior data k).resume =
      some (success_resume rl k data.length L) := hPresume
  have hic : is_model_completed (partial_run behavior data k) = false := by
    simp [is_model_completed, hPresume', success_resume, show ¬ data.length ≤ k from by omega]
  have hfind : find_resume_point data.length (partial_run behavior data k) =
      (k, partial_run behavior data k) := by
    simp [find_resume_point, hPresume', success_resume, show k ≤ data.length from by omega]
  rw [hfresh]
  simp only [process_model_streaming, hic, Bool.false_eq_true, if_neg, not_false_iff,
    hfind]
  rw [stream_entries_resume_split behavior data.length 3 data k _ (by omega)]
  obtain ⟨h1, _, _⟩ := stream_mixed behavior data.length ht (data.drop k) k
    (partial_run behavior data k) hPr
  rw [h1, hPo]
  rw [← List.map_append, List.take_append_drop]

/-- Witness for claim C1: a two-record job whose first record succeeds
and whose second record permanently fails, interrupted right after the
first record. -/
theorem claim_c1_witness :
    (0 : Nat) < 1 ∧ (1 : Nat) < ([0, 1] : List Nat).length ∧
    (∀ r : Nat, (([0, 1] : List Nat).take 1).getLast? = some r →
      ((fun j : Nat => if j = 0 then
          some { content := "ok".data, total_duration := 0, load_duration := 0,
                 prompt_eval_count := 0, prompt_eval_duration := 0,
                 eval_count := 0, eval_duration := 0 }
        else none : Nat → Option LlmResponse) r).isSome = true) ∧
    ((process_model_streaming (fun j : Nat => if j = 0 then
          some { content := "ok".data, total_duration := 0, load_duration := 0,
                 prompt_eval_count := 0, prompt_eval_duration := 0,
                 eval_count := 0, eval_duration := 0 }
        else none) [0, 1] 3
        (partial_run (fun j : Nat => if j = 0 then
          some { content := "ok".data, total_duration := 0, load_duration := 0,
                 prompt_eval_count := 0, prompt_eval_duration := 0,
                 eval_count := 0, eval_duration := 0 }
        else none) [0, 1] 1)).2.output =
      (process_model_streaming (fun j : Nat => if j = 0 then
          some { content := "ok".data, total_duration := 0, load_duration := 0,
                 prompt_eval_count := 0, prompt_eval_duration := 0,
                 eval_count := 0, eval_duration := 0 }
        else none) [0, 1] 3
        (initial_state Nat)).2.output) :=
  ⟨by decide, by decide,
    by
      intro r hr
      simp at hr
      subst hr
      decide,
    (claim_c1 _ [0, 1] 1 (by decide) (by decide)
      (by
        intro r hr
        simp at hr
        subst hr
        decide)).1⟩

/-! ### Whitespace and character lemmas -/

theorem skipWs_cons_of_ws {c : Char} (h : isWs c = true) (cs : List Char) :
    skipWs (c :: cs) = skipWs cs := by
  simp [skipWs, h]

theorem skipWs_cons_of_not_ws {c : Char} (h : isWs c = false) (cs : List Char) :
    skipWs (c :: cs) = c :: cs := by
  simp [skipWs, h]

theorem skipWs_indent (lvl : Nat) (cs : List Char) :
    skipWs (indentChars lvl ++ cs) = skipWs cs := by
  unfold indentChars
  induction 4 * lvl with
  | zero => simp
  | succ n ih => simpa [List.replicate_succ, skipWs, isWs] using ih

theorem skipWs_length_le (cs : List Char) : (skipWs cs).length ≤ cs.length := by
  induction cs with
  | nil => simp [skipWs]
  | cons c cs ih =>
    by_cases h : isWs c = true
    · rw [skipWs_cons_of_ws h]
      exact ih.trans (by simp)
    · rw [skipWs_cons_of_not_ws (by simpa using h)]

/-- A digit character differs from every non-digit character. -/
theorem digit_ne {c : Char} (h : c.isDigit = true) (d : Char) (hd : d.isDigit = false) :
    c ≠ d := by
  intro e
  subst e
  simp [h] at hd

/-- A digit character is not JSON whitespace. -/
theorem digit_not_ws {c : Char} (h : c.isDigit = true) : isWs c = false := by
  have h1 : c ≠ ' ' := digit_ne h ' ' (by decide)
  have h2 : c ≠ '\t' := digit_ne h '\t' (by decide)
  have h3 : c ≠ '\n' := digit_ne h '\n' (by decide)
  have h4 : c ≠ '\r' := digit_ne h '\r' (by decide)
  simp [isWs, h1, h2, h3, h4]

/-- Every fact the decoder dispatch needs about a digit character. -/
theorem digit_facts {c : Char} (h : c.isDigit = true) :
    c ≠ 'n' ∧ c ≠ 't' ∧ c ≠ 'f' ∧ c ≠ '"' ∧ c ≠ '-' ∧ isWs c = false ∧
      c ≠ ']' ∧ c ≠ '}' ∧ c ≠ '[' ∧ c ≠ '{' ∧ c ≠ ',' :=
  ⟨digit_ne h 'n' (by decide), digit_ne h 't' (by decide), digit_ne h 'f' (by decide),
    digit_ne h '"' (by decide), digit_ne h '-' (by decide), digit_not_ws h,
    digit_ne h ']' (by decide), digit_ne h '}' (by decide), digit_ne h '[' (by decide),
    digit_ne h '{' (by decide), digit_ne h ',' (by decide)⟩

theorem digitVal_digitChar {d : Nat} (h : d < 10) : digitVal (digitChar d) = d := by
  interval_cases d <;> decide

theorem digitChar_isDigit {d : Nat} (h : d < 10) : (digitChar d).isDigit = true := by
  interval_cases d <;> decide

theorem digitChar_ne_zero_char {d : Nat} (h1 : d < 10) (h2 : d ≠ 0) :
    digitChar d ≠ '0' := by
  interval_cases d <;> simp_all <;> decide

/-! ### String literal round trip -/

theorem parseStrRest_append (s : List Char) (rest : List Char) (h : strOK s = true) :
    parseStrRest (s ++ '"' :: rest) = some (s, rest) := by
  induction s with
  | nil => simp [parseStrRest]
  | cons c s ih =>
    simp only [strOK, List.all_cons, Bool.and_eq_true] at h
    obtain ⟨⟨h1, h2⟩, h3⟩ := h
    simp only [List.cons_append, parseStrRest, List.append_eq,
      if_neg (by simpa using h1), if_neg (by simpa using h2)]
    rw [ih h3]

/-! ### Numeric literal round trip -/

theorem takeDigits_append (ds rest : List Char) (hds : ∀ c ∈ ds, c.isDigit = true)
    (hrest : goodTail rest) : takeDigits (ds ++ rest) = (ds, rest) := by
  induction ds with
  | nil =>
    cases rest with
    | nil => rfl
    | cons c r =>
      simp only [goodTail] at hrest
      simp [takeDigits, hrest]
  | cons c ds ih =>
    have hc := hds c (by simp)
    simp [takeDigits, hc, ih (fun x hx => hds x (by simp [hx]))]

theorem digitsToNat_reverse_map (l : List Nat) (h : ∀ d ∈ l, d < 10) :
    digitsToNat (l.reverse.map digitChar) = Nat.ofDigits 10 l := by
  induction l with
  | nil => simp [digitsToNat, Nat.ofDigits]
  | cons d ds ih =>
    simp only [List.reverse_cons, List.map_append, List.map_cons, List.map_nil]
    unfold digitsToNat
    rw [List.foldl_append]
    have hfold := ih (fun x hx => h x (by simp [hx]))
    unfold digitsToNat at hfold
    rw [hfold]
    simp [Nat.ofDigits_cons, digitVal_digitChar (h d (by simp))]
    ring

theorem natChars_spec (n : Nat) :
    (∀ c ∈ natChars n, c.isDigit = true) ∧ digitsToNat (natChars n) = n ∧
    ∃ c z, natChars n = c :: z ∧ c.isDigit = true ∧ (n ≠ 0 → c ≠ '0') := by
  by_cases h0 : n = 0
  · subst h0
    refine ⟨by decide, by decide, '0', [], rfl, by decide, by simp⟩
  · have hddig : ∀ d ∈ Nat.digits 10 n, d < 10 :=
      fun d hd => Nat.digits_lt_base (by norm_num) hd
    have hall : ∀ c ∈ natChars n, c.isDigit = true := by
      intro c hc
      simp only [natChars, if_neg h0, List.mem_map, List.mem_reverse] at hc
      obtain ⟨d, hd, rfl⟩ := hc
      exact digitChar_isDigit (hddig d hd)
    have hval : digitsToNat (natChars n) = n := by
      simp only [natChars, if_neg h0]
      rw [digitsToNat_reverse_map _ hddig, Nat.ofDigits_digits]
    have hne : Nat.digits 10 n ≠ [] := Nat.digits_ne_nil_iff_ne_zero.mpr h0
    have hlast := Nat.getLast_digit_ne_zero 10 h0
    refine ⟨hall, hval, ?_⟩
    cases hnc : natChars n with
    | nil =>
      exfalso
      have := congrArg List.length hnc
      simp [natChars, if_neg h0, hne] at this
    | cons c z =>
      refine ⟨c, z, rfl, hall c (by rw [hnc]; simp), fun _ => ?_⟩
      have hhead : (natChars n).head? = some (digitChar ((Nat.digits 10 n).getLast hne)) := by
        simp only [natChars, if_neg h0]
        rw [List.head?_map, List.head?_reverse, List.getLast?_eq_getLast _ hne]
        rfl
      rw [hnc] at hhead
      simp only [List.head?_cons, Option.some.injEq] at hhead
      subst hhead
      exact digitChar_ne_zero_char (hddig _ (List.getLast_mem hne)) hlast

/-- Unfolding equation: the decoder at an opening bracket. -/
theorem parseVal_lbrack (f : Nat) (Y : List Char) :
    parseVal (f + 1) ('[' :: Y) =
      (match skipWs Y with
       | ']' :: r => some (Json.arr [], r)
       | cs1 =>
         match parseVal f cs1 with
         | some (v, r) =>
           match parseArrRest f (skipWs r) with
           | some (vs, r2) => some (Json.arr (v :: vs), r2)
           | none => none
         | none => none) := rfl

/-- Unfolding equation: the decoder at an opening brace. -/
theorem parseVal_lbrace (f : Nat) (Y : List Char) :
    parseVal (f + 1) ('{' :: Y) =
      (match skipWs Y with
       | '}' :: r => some (Json.obj [], r)
       | cs1 =>
         match parseMember f cs1 with
         | some (kv, r) =>
           match parseObjRest f (skipWs r) with
           | some (kvs, r2) => some (Json.obj (kv :: kvs), r2)
           | none => none
         | none => none) := rfl

/-- Unfolding equation: array continuation at a comma. -/
theorem parseArrRest_comma (f : Nat) (r : List Char) :
    parseArrRest (f + 1) (',' :: r) =
      (match parseVal f (skipWs r) with
       | some (v, r1) =>
         match parseArrRest f (skipWs r1) with
         | some (vs, r2) => some (v :: vs, r2)
         | none => none
       | none => none) := rfl

/-- Unfolding equation: object continuation at a comma. -/
theorem parseObjRest_comma (f : Nat) (r : List Char) :
    parseObjRest (f + 1) (',' :: r) =
      (match parseMember f (skipWs r) with
       | some (kv, r1) =>
         match parseObjRest f (skipWs r1) with
         | some (kvs, r2) => some (kv :: kvs, r2)
         | none => none
       | none => none) := rfl

/-- Unfolding equation: an object member at its opening quote. -/
theorem parseMember_quote (f : Nat) (cs : List Char) :
    parseMember (f + 1) ('"' :: cs) =
      (match parseStrRest cs with
       | some (k, r) =>
         match skipWs r with
         | ':' :: r1 =>
           match parseVal f (skipWs r1) with
           | some (v, r2) => some ((k, v), r2)
           | none => none
         | _ => none
       | none => none) := rfl

theorem parseNat_natChars (n : Nat) (rest : List Char) (hrest : goodTail rest) :
    parseNat (natChars n ++ rest) = some (n, rest) := by
  obtain ⟨hall, hval, c, z, hnc, hdig, hzero⟩ := natChars_spec n
  by_cases h0 : n = 0
  · subst h0
    have : natChars 0 = ['0'] := by decide
    rw [this]
    simp [parseNat]
  · rw [hnc]
    simp only [List.cons_append, parseNat, if_neg (hzero h0), hdig, if_pos]
    rw [takeDigits_append z rest (fun x hx => hall x (by rw [hnc]; simp [hx])) hrest]
    have : digitsToNat (c :: z) = n := by rw [← hnc]; exact hval
    simp [this]

/-- The decoder on a serialized integer literal. -/
theorem parseVal_intChars (f : Nat) (n : Int) (rest : List Char) (hrest : goodTail rest) :
    parseVal (f + 1) (intChars n ++ rest) = some (.num n, rest) := by
  cases n with
  | ofNat m =>
    obtain ⟨hall, hval, c, z, hnc, hdig, hzero⟩ := natChars_spec m
    obtain ⟨hn, ht, hf, hq, hm, _, _, _, hlb, hcb, _⟩ := digit_facts hdig
    have hpn := parseNat_natChars m rest hrest
    rw [hnc] at hpn
    show parseVal (f + 1) (natChars m ++ rest) = some (.num (m : Int), rest)
    rw [hnc]
    simp only [List.cons_append] at hpn ⊢
    simp only [parseVal, if_neg hn, if_neg ht, if_neg hf, if_neg hq, if_neg hm, hdig,
      if_pos, hpn]
  | negSucc m =>
    show parseVal (f + 1) ('-' :: (natChars (m + 1) ++ rest)) = some (.num (.negSucc m), rest)
    have hpn := parseNat_natChars (m + 1) rest hrest
    rw [show ∀ Y, parseVal (f + 1) ('-' :: Y) =
        (match parseNat Y with
         | some (n, r) => some (Json.num (-(n : Int)), r)
         | none => none) from fun Y => rfl]
    rw [hpn]
    show some (Json.num (-((m + 1 : Nat) : Int)), rest) = some (Json.num (Int.negSucc m), rest)
    norm_num [Int.negSucc_eq]

/-- Every serialization starts with a character that is neither
whitespace nor a closing bracket. -/
theorem dumpsVal_cons (lvl : Nat) (v : Json) :
    ∃ c z, dumpsVal lvl v = c :: z ∧ isWs c = false ∧ c ≠ ']' ∧ c ≠ '}' := by
  cases v with
  | null => exact ⟨'n', _, rfl, by decide, by decide, by decide⟩
  | bool b => cases b
              · exact ⟨'f', _, rfl, by decide, by decide, by decide⟩
              · exact ⟨'t', _, rfl, by decide, by decide, by decide⟩
  | num n =>
    cases n with
    | ofNat m =>
      obtain ⟨_, _, c, z, hnc, hdig, _⟩ := natChars_spec m
      obtain ⟨_, _, _, _, _, hws, hrb, hcb, _, _, _⟩ := digit_facts hdig
      exact ⟨c, z, by simp [dumpsVal, intChars, hnc], hws, hrb, hcb⟩
    | negSucc m => exact ⟨'-', _, rfl, by decide, by decide, by decide⟩
  | str s => exact ⟨'"', _, rfl, by decide, by decide, by decide⟩
  | arr xs =>
    cases xs with
    | nil => exact ⟨'[', _, rfl, by decide, by decide, by decide⟩
    | cons x xs => exact ⟨'[', _, rfl, by decide, by decide, by decide⟩
  | obj ms =>
    cases ms with
    | nil => exact ⟨'{', _, rfl, by decide, by decide, by decide⟩
    | cons m ms => exact ⟨'{', _, rfl, by decide, by decide, by decide⟩

theorem jsize_pos (v : Json) : 1 ≤ jsize v := by
  cases v <;> simp [jsize]

theorem jsizeList_pos (xs : List Json) : 1 ≤ jsizeList xs := by
  cases xs <;> simp only [jsizeList] <;> omega

theorem jsizeMembers_pos (ms : List (List Char × Json)) : 1 ≤ jsizeMembers ms := by
  cases ms <;> simp only [jsizeMembers] <;> omega

theorem goodTail_newline (x : List Char) : goodTail ('\n' :: x) := by
  simp [goodTail]

theorem goodTail_comma (x : List Char) : goodTail (',' :: x) := by
  simp [goodTail]

/-- Round trip: the decoder inverts `json.dumps(·, indent=4)` on every
value of the modelled fragment, at any indentation level, with any fuel
of at least the value's size. -/
theorem parse_dumps : ∀ F : Nat,
    (∀ v lvl rest, jsonOK v = true → jsize v ≤ F → goodTail rest →
      parseVal F (dumpsVal lvl v ++ rest) = some (v, rest)) ∧
    (∀ xs ilvl clvl rest, jsonOKList xs = true → jsizeList xs ≤ F →
      parseArrRest F (skipWs (dumpsItems ilvl xs ++ '\n' :: indentChars clvl ++ ']' :: rest)) =
        some (xs, rest)) ∧
    (∀ ms ilvl clvl rest, jsonOKMembers ms = true → jsizeMembers ms ≤ F →
      parseObjRest F (skipWs (dumpsMembers ilvl ms ++ '\n' :: indentChars clvl ++ '}' :: rest)) =
        some (ms, rest)) ∧
    (∀ k v lvl rest, strOK k = true → jsonOK v = true → jsize v + 1 ≤ F → goodTail rest →
      parseMember F (dumpsMember lvl (k, v) ++ rest) = some ((k, v), rest)) := by
  intro F
  induction F using Nat.strong_induction_on with
  | _ F ih =>
  cases F with
  | zero =>
    refine ⟨fun v _ _ _ hsz _ => absurd hsz (by have := jsize_pos v; omega),
            fun xs _ _ _ _ hsz => absurd hsz (by have := jsizeList_pos xs; omega),
            fun ms _ _ _ _ hsz => absurd hsz (by have := jsizeMembers_pos ms; omega),
            fun k v _ _ _ _ hsz _ => absurd hsz (by have := jsize_pos v; omega)⟩
  | succ F =>
  obtain ⟨ihv, iha, iho, ihm⟩ := ih F (by omega)
  have compVal : ∀ v lvl rest, jsonOK v = true → jsize v ≤ F + 1 → goodTail rest →
      parseVal (F + 1) (dumpsVal lvl v ++ rest) = some (v, rest) := by
    intro v lvl rest hok hsz hrest
    cases v with
    | null => rfl
    | bool b => cases b <;> rfl
    | num n => exact parseVal_intChars F n rest hrest
    | str s =>
      rw [show dumpsVal lvl (Json.str s) ++ rest = '"' :: (s ++ '"' :: rest) from by
        simp [dumpsVal]]
      rw [show ∀ Y, parseVal (F + 1) ('"' :: Y) =
          (match parseStrRest Y with
           | some (s, r) => some (Json.str s, r)
           | none => none) from fun Y => rfl]
      rw [parseStrRest_append s rest (by simpa [jsonOK] using hok)]
    | arr xs =>
      cases xs with
      | nil => rfl
      | cons x xs =>
        have hok2 : jsonOK x = true ∧ jsonOKList xs = true := by
          simpa [jsonOK, jsonOKList, Bool.and_eq_true] using hok
        have hsz2 : jsize x ≤ F ∧ jsizeList xs ≤ F := by
          have h1 := jsize_pos x
          have h2 := jsizeList_pos xs
          simp only [jsize, jsizeList] at hsz
          omega
        obtain ⟨c, z, hdx, hws, hrb, hcb⟩ := dumpsVal_cons (lvl + 1) x
        show parseVal (F + 1)
          ('[' :: '\n' :: (indentChars (lvl + 1) ++ dumpsVal (lvl + 1) x ++
            dumpsItems (lvl + 1) xs ++ '\n' :: indentChars lvl ++ [']'] ++ rest)) =
          some (.arr (x :: xs), rest)
        rw [parseVal_lbrack]
        rw [skipWs_cons_of_ws (by decide)]
        rw [show indentChars (lvl + 1) ++ dumpsVal (lvl + 1) x ++
            dumpsItems (lvl + 1) xs ++ '\n' :: indentChars lvl ++ [']'] ++ rest =
            indentChars (lvl + 1) ++ (dumpsVal (lvl + 1) x ++
              (dumpsItems (lvl + 1) xs ++ '\n' :: indentChars lvl ++ (']' :: rest))) from by
          simp [List.append_assoc]]
        rw [skipWs_indent, hdx, List.cons_append, skipWs_cons_of_not_ws hws]
        have hT : goodTail (dumpsItems (lvl + 1) xs ++ '\n' :: indentChars lvl ++ (']' :: rest)) := by
          cases xs with
          | nil => exact goodTail_newline _
          | cons y ys => exact goodTail_comma _
        have hpx := ihv x (lvl + 1)
          (dumpsItems (lvl + 1) xs ++ '\n' :: indentChars lvl ++ (']' :: rest))
          hok2.1 hsz2.1 hT
        rw [hdx, List.cons_append] at hpx
        have hpxs := iha xs (lvl + 1) lvl rest hok2.2 hsz2.2
        split
        · next r heq =>
          exfalso
          have : c = ']' := by
            have := heq
            injection this with h1 _
          exact hrb this
        · next cs1 heq =>
          simp only [hpx, hpxs]
    | obj ms =>
      cases ms with
      | nil => rfl
      | cons m ms =>
        obtain ⟨k0, v0⟩ := m
        have hok2 : (strOK k0 = true ∧ jsonOK v0 = true) ∧ jsonOKMembers ms = true := by
          simpa [jsonOK, jsonOKMembers, Bool.and_eq_true] using hok
        have hsz2 : jsize v0 + 1 ≤ F ∧ jsizeMembers ms ≤ F := by
          have h1 := jsize_pos v0
          have h2 := jsizeMembers_pos ms
          simp only [jsize, jsizeMembers] at hsz
          omega
        show parseVal (F + 1)
          ('{' :: '\n' :: (indentChars (lvl + 1) ++ dumpsMember (lvl + 1) (k0, v0) ++
            dumpsMembers (lvl + 1) ms ++ '\n' :: indentChars lvl ++ ['}'] ++ rest)) =
          some (.obj ((k0, v0) :: ms), rest)
        rw [parseVal_lbrace]
        rw [skipWs_cons_of_ws (by decide)]
        rw [show indentChars (lvl + 1) ++ dumpsMember (lvl + 1) (k0, v0) ++
            dumpsMembers (lvl + 1) ms ++ '\n' :: indentChars lvl ++ ['}'] ++ rest =
            indentChars (lvl + 1) ++ (dumpsMember (lvl + 1) (k0, v0) ++
              (dumpsMembers (lvl + 1) ms ++ '\n' :: indentChars lvl ++ ('}' :: rest))) from by
          simp [List.append_assoc]]
        rw [skipWs_indent]
        have hT : goodTail (dumpsMembers (lvl + 1) ms ++ '\n' :: indentChars lvl ++ ('}' :: rest)) := by
          cases ms with
          | nil => exact goodTail_newline _
          | cons y ys => exact goodTail_comma _
        have hpm := ihm k0 v0 (lvl + 1)
          (dumpsMembers (lvl + 1) ms ++ '\n' :: indentChars lvl ++ ('}' :: rest))
          hok2.1.1 hok2.1.2 hsz2.1 hT
        have hpms := iho ms (lvl + 1) lvl rest hok2.2 hsz2.2
        have hmemberhead : dumpsMember (lvl + 1) (k0, v0) = '"' :: (k0 ++ '"' :: ':' :: ' ' :: dumpsVal (lvl + 1) v0) := rfl
        rw [hmemberhead, List.cons_append, skipWs_cons_of_not_ws (by decide)]
        rw [hmemberhead, List.cons_append] at hpm
        split
        · next r h1 h2 =>
          injection h2 with hh ht
          exact absurd hh (by decide)
        · next cs1 heq =>
          simp only [hpm, hpms]
  refine ⟨compVal, ?_, ?_, ?_⟩
  · intro xs ilvl clvl rest hok hsz
    cases xs with
    | nil =>
      rw [show dumpsItems ilvl [] ++ '\n' :: indentChars clvl ++ ']' :: rest =
          '\n' :: (indentChars clvl ++ ']' :: rest) from by simp [dumpsItems]]
      rw [skipWs_cons_of_ws (by decide), skipWs_indent, skipWs_cons_of_not_ws (by decide)]
      rfl
    | cons x xs =>
      have hok2 : jsonOK x = true ∧ jsonOKList xs = true := by
        simpa [jsonOKList, Bool.and_eq_true] using hok
      have hsz2 : jsize x ≤ F ∧ jsizeList xs ≤ F := by
        simp only [jsizeList] at hsz
        omega
      rw [show dumpsItems ilvl (x :: xs) ++ '\n' :: indentChars clvl ++ ']' :: rest =
          ',' :: ('\n' :: (indentChars ilvl ++ (dumpsVal ilvl x ++
            (dumpsItems ilvl xs ++ '\n' :: indentChars clvl ++ ']' :: rest)))) from by
        simp [dumpsItems, List.append_assoc]]
      rw [skipWs_cons_of_not_ws (by decide), parseArrRest_comma]
      rw [skipWs_cons_of_ws (by decide), skipWs_indent]
      obtain ⟨c, z, hdx, hws, _, _⟩ := dumpsVal_cons ilvl x
      rw [hdx, List.cons_append, skipWs_cons_of_not_ws hws, ← List.cons_append, ← hdx]
      have hT : goodTail (dumpsItems ilvl xs ++ '\n' :: indentChars clvl ++ ']' :: rest) := by
        cases xs with
        | nil => exact goodTail_newline _
        | cons y ys => exact goodTail_comma _
      rw [ihv x ilvl _ hok2.1 hsz2.1 hT]
      simp only [iha xs ilvl clvl rest hok2.2 hsz2.2]
  · intro ms ilvl clvl rest hok hsz
    cases ms with
    | nil =>
      rw [show dumpsMembers ilvl [] ++ '\n' :: indentChars clvl ++ '}' :: rest =
          '\n' :: (indentChars clvl ++ '}' :: rest) from by simp [dumpsMembers]]
      rw [skipWs_cons_of_ws (by decide), skipWs_indent, skipWs_cons_of_not_ws (by decide)]
      rfl
    | cons m ms =>
      obtain ⟨k0, v0⟩ := m
      have hok2 : (strOK k0 = true ∧ jsonOK v0 = true) ∧ jsonOKMembers ms = true := by
        simpa [jsonOKMembers, Bool.and_eq_true] using hok
      have hsz2 : jsize v0 + 1 ≤ F ∧ jsizeMembers ms ≤ F := by
        simp only [jsizeMembers] at hsz
        have := jsize_pos v0
        have h2 := jsizeMembers_pos ms
        omega
      rw [show dumpsMembers ilvl ((k0, v0) :: ms) ++ '\n' :: indentChars clvl ++ '}' :: rest =
          ',' :: ('\n' :: (indentChars ilvl ++ (dumpsMember ilvl (k0, v0) ++
            (dumpsMembers ilvl ms ++ '\n' :: indentChars clvl ++ '}' :: rest)))) from by
        simp [dumpsMembers, List.append_assoc]]
      rw [skipWs_cons_of_not_ws (by decide), parseObjRest_comma]
      rw [skipWs_cons_of_ws (by decide), skipWs_indent]
      rw [show dumpsMember ilvl (k0, v0) ++
          (dumpsMembers ilvl ms ++ '\n' :: indentChars clvl ++ '}' :: rest) =
          '"' :: (k0 ++ '"' :: ':' :: ' ' :: dumpsVal ilvl v0 ++
            (dumpsMembers ilvl ms ++ '\n' :: indentChars clvl ++ '}' :: rest)) from by
        simp [dumpsMember, List.append_assoc]]
      rw [skipWs_cons_of_not_ws (by decide)]
      have hT : goodTail (dumpsMembers ilvl ms ++ '\n' :: indentChars clvl ++ '}' :: rest) := by
        cases ms with
        | nil => exact goodTail_newline _
        | cons y ys => exact goodTail_comma _
      have hpm := ihm k0 v0 ilvl
        (dumpsMembers ilvl ms ++ '\n' :: indentChars clvl ++ '}' :: rest)
        hok2.1.1 hok2.1.2 hsz2.1 hT
      rw [show dumpsMember ilvl (k0, v0) ++
          (dumpsMembers ilvl ms ++ '\n' :: indentChars clvl ++ '}' :: rest) =
          '"' :: (k0 ++ '"' :: ':' :: ' ' :: dumpsVal ilvl v0 ++
            (dumpsMembers ilvl ms ++ '\n' :: indentChars clvl ++ '}' :: rest)) from by
        simp [dumpsMember, List.append_assoc]] at hpm
      rw [hpm]
      simp only [iho ms ilvl clvl rest hok2.2 hsz2.2]
  · intro k v lvl rest hks hok hsz hrest
    rw [show dumpsMember lvl (k, v) ++ rest =
        '"' :: (k ++ '"' :: (':' :: ' ' :: dumpsVal lvl v ++ rest)) from by
      simp [dumpsMember, List.append_assoc]]
    rw [parseMember_quote]
    simp only [parseStrRest_append k _ hks]
    split
    · next r1 heq =>
      rw [List.cons_append, List.cons_append] at heq
      rw [skipWs_cons_of_not_ws (show isWs ':' = false from by decide)] at heq
      injection heq with h1 h2
      subst h2
      rw [show skipWs (' ' :: (dumpsVal lvl v ++ rest)) = dumpsVal lvl v ++ rest from by
        obtain ⟨c, z, hdx, hws, _, _⟩ := dumpsVal_cons lvl v
        rw [skipWs_cons_of_ws (by decide), hdx, List.cons_append,
          skipWs_cons_of_not_ws hws, ← List.cons_append, ← hdx]]
      simp only [ihv v lvl rest hok (by omega) hrest]
    · next x1 hne =>
      refine absurd ?_ (hne (' ' :: dumpsVal lvl v ++ rest))
      rw [List.cons_append, List.cons_append]
      exact skipWs_cons_of_not_ws (show isWs ':' = false from by decide) _

theorem intChars_length_pos (n : Int) : 1 ≤ (intChars n).length := by
  cases n with
  | ofNat m =>
    show 1 ≤ (natChars m).length
    rw [natChars]
    split
    · simp
    · next h =>
      simp only [List.length_map, List.length_reverse]
      have hd : Nat.digits 10 m ≠ [] := Nat.digits_ne_nil_iff_ne_zero.mpr h
      exact List.length_pos.mpr hd
  | negSucc m => simp [intChars]

/-- The structural size of a value never exceeds the length of its
serialization (at any indentation level). -/
theorem size_le_dumps : ∀ N : Nat,
    (∀ v lvl, jsize v ≤ N → jsize v ≤ (dumpsVal lvl v).length) ∧
    (∀ xs lvl, jsizeList xs ≤ N → jsizeList xs ≤ (dumpsItems lvl xs).length + 1) ∧
    (∀ ms lvl, jsizeMembers ms ≤ N → jsizeMembers ms ≤ (dumpsMembers lvl ms).length + 1) := by
  intro N
  induction N using Nat.strong_induction_on with
  | _ N ih =>
  cases N with
  | zero =>
    exact ⟨fun v _ h => absurd h (by have := jsize_pos v; omega),
           fun xs _ h => absurd h (by have := jsizeList_pos xs; omega),
           fun ms _ h => absurd h (by have := jsizeMembers_pos ms; omega)⟩
  | succ N =>
  obtain ⟨ihv, ihl, ihm⟩ := ih N (Nat.lt_succ_self N)
  refine ⟨?_, ?_, ?_⟩
  · intro v lvl hN
    cases v with
    | null => simp [jsize, dumpsVal]
    | bool b => cases b <;> simp [jsize, dumpsVal]
    | num n => simpa [jsize, dumpsVal] using intChars_length_pos n
    | str s => simp [jsize, dumpsVal]
    | arr xs =>
      cases xs with
      | nil => simp [jsize, jsizeList, dumpsVal]
      | cons x xs =>
        have h1 : jsize x ≤ N := by
          have := jsizeList_pos xs
          simp only [jsize, jsizeList] at hN
          omega
        have h2 : jsizeList xs ≤ N := by
          have := jsize_pos x
          simp only [jsize, jsizeList] at hN
          omega
        have b1 := ihv x (lvl + 1) h1
        have b2 := ihl xs (lvl + 1) h2
        simp only [jsize, jsizeList, dumpsVal, List.length_cons, List.length_append,
          indentChars, List.length_replicate]
        omega
    | obj ms =>
      cases ms with
      | nil => simp [jsize, jsizeMembers, dumpsVal]
      | cons m ms =>
        obtain ⟨k0, v0⟩ := m
        have h1 : jsize v0 ≤ N := by
          have := jsizeMembers_pos ms
          simp only [jsize, jsizeMembers] at hN
          omega
        have h2 : jsizeMembers ms ≤ N := by
          have := jsize_pos v0
          simp only [jsize, jsizeMembers] at hN
          omega
        have b1 := ihv v0 (lvl + 1) h1
        have b2 := ihm ms (lvl + 1) h2
        simp only [jsize, jsizeMembers, dumpsVal, dumpsMember, List.length_cons,
          List.length_append, indentChars, List.length_replicate]
        omega
  · intro xs lvl hN
    cases xs with
    | nil => simp [jsizeList, dumpsItems]
    | cons x xs =>
      have h1 : jsize x ≤ N := by
        have := jsizeList_pos xs
        simp only [jsizeList] at hN
        omega
      have h2 : jsizeList xs ≤ N := by
        have := jsize_pos x
        simp only [jsizeList] at hN
        omega
      have b1 := ihv x lvl h1
      have b2 := ihl xs lvl h2
      simp only [jsizeList, dumpsItems, List.length_cons, List.length_append,
        indentChars, List.length_replicate]
      omega
  · intro ms lvl hN
    cases ms with
    | nil => simp [jsizeMembers, dumpsMembers]
    | cons m ms =>
      obtain ⟨k0, v0⟩ := m
      have h1 : jsize v0 ≤ N := by
        have := jsizeMembers_pos ms
        simp only [jsizeMembers] at hN
        omega
      have h2 : jsizeMembers ms ≤ N := by
        have := jsize_pos v0
        simp only [jsizeMembers] at hN
        omega
      have b1 := ihv v0 lvl h1
      have b2 := ihm ms lvl h2
      simp only [jsizeMembers, dumpsMembers, dumpsMember, List.length_cons,
        List.length_append, indentChars, List.length_replicate]
      omega

theorem jsizeList_le_joinTail (es : List Json) :
    jsizeList es ≤ (joinTail es).length + 1 := by
  induction es with
  | nil => simp [jsizeList, joinTail]
  | cons x xs ih =>
    have hx : jsize x ≤ (dumpsVal 0 x).length := (size_le_dumps (jsize x)).1 x 0 le_rfl
    simp only [jsizeList, joinTail, List.length_cons, List.length_append]
    omega

theorem joinEntries_writer (e : Json) (es : List Json) :
    joinEntries (dumpsVal 0 e :: es.map (dumpsVal 0)) = dumpsVal 0 e ++ joinTail es := by
  induction es generalizing e with
  | nil => simp [joinEntries, joinTail]
  | cons x xs ih =>
    rw [List.map_cons]
    rw [show joinEntries (dumpsVal 0 e :: dumpsVal 0 x :: xs.map (dumpsVal 0)) =
        dumpsVal 0 e ++ '\n' :: ',' :: '\n' :: joinEntries (dumpsVal 0 x :: xs.map (dumpsVal 0))
      from rfl]
    rw [ih x]
    simp [joinTail]

theorem joinTail_concat (es : List Json) (x : Json) :
    joinTail (es ++ [x]) = joinTail es ++ '\n' :: ',' :: '\n' :: dumpsVal 0 x := by
  induction es with
  | nil => simp [joinTail]
  | cons y ys ih =>
    simp only [List.cons_append, joinTail, List.append_assoc, List.append_eq]
    rw [ih]

theorem write_to_json_nil (x : Json) :
    write_to_json [] x = some (renderFile ([x].map (dumpsVal 0))) := by
  simp [write_to_json, renderFile, joinEntries]

theorem write_to_json_snoc (e x : Json) (es : List Json) :
    write_to_json (renderFile ((e :: es).map (dumpsVal 0))) x =
      some (renderFile (((e :: es) ++ [x]).map (dumpsVal 0))) := by
  have hJ : renderFile ((e :: es).map (dumpsVal 0)) =
      ('[' :: '\n' :: (dumpsVal 0 e ++ joinTail es ++ ['\n'])) ++ [']'] := by
    simp [renderFile, joinEntries_writer, List.append_assoc]
  rw [hJ]
  simp only [write_to_json]
  rw [if_neg (by simp)]
  simp only [List.getLast?_concat, List.dropLast_concat]
  have hbody : ('[' :: '\n' :: (dumpsVal 0 e ++ joinTail es ++ ['\n'])).getLast? = some '\n' := by
    rw [show '[' :: '\n' :: (dumpsVal 0 e ++ joinTail es ++ ['\n']) =
        ('[' :: '\n' :: (dumpsVal 0 e ++ joinTail es)) ++ ['\n'] from by
      simp [List.append_assoc]]
    rw [List.getLast?_concat]
  simp only [List.cons_append, List.head?_cons, hbody]
  rw [if_neg (by decide)]
  have hR : renderFile ((e :: (es ++ [x])).map (dumpsVal 0)) =
      '[' :: '\n' :: (dumpsVal 0 e ++
        (joinTail es ++ '\n' :: ',' :: '\n' :: (dumpsVal 0 x ++ ['\n', ']']))) := by
    simp only [renderFile, List.map_cons]
    rw [joinEntries_writer e (es ++ [x]), joinTail_concat]
    simp [List.append_assoc]
  rw [hR]
  simp [List.append_assoc]

theorem write_fold : ∀ (ts : List Json) (e : Json) (es : List Json),
    List.foldlM write_to_json (renderFile ((e :: es).map (dumpsVal 0))) ts =
      some (renderFile (((e :: es) ++ ts).map (dumpsVal 0))) := by
  intro ts
  induction ts with
  | nil => intro e es; simp [List.foldlM]
  | cons x xs ih =>
    intro e es
    rw [List.foldlM_cons, write_to_json_snoc e x es]
    show List.foldlM write_to_json (renderFile (((e :: es) ++ [x]).map (dumpsVal 0))) xs = _
    rw [show (e :: es) ++ [x] = e :: (es ++ [x]) from by simp]
    rw [ih e (es ++ [x])]
    simp [List.append_assoc]

theorem write_sequence_eq (e : Json) (es : List Json) :
    write_sequence (e :: es) = some (renderFile ((e :: es).map (dumpsVal 0))) := by
  simp only [write_sequence]
  rw [List.foldlM_cons, write_to_json_nil e]
  show List.foldlM write_to_json (renderFile ([e].map (dumpsVal 0))) es = _
  rw [show ([e] : List Json) = e :: ([] : List Json) from rfl, write_fold es e []]
  simp

theorem parse_joinTail : ∀ (es : List Json) (f : Nat) (rest : List Char),
    jsonOKList es = true → jsizeList es ≤ f →
    parseArrRest f (skipWs (joinTail es ++ '\n' :: ']' :: rest)) = some (es, rest) := by
  intro es
  induction es with
  | nil =>
    intro f rest _ hsz
    obtain ⟨f', rfl⟩ : ∃ f', f = f' + 1 :=
      ⟨f - 1, by simp only [jsizeList] at hsz; omega⟩
    rw [show joinTail [] ++ '\n' :: ']' :: rest = '\n' :: ']' :: rest from by simp [joinTail]]
    rw [skipWs_cons_of_ws (by decide), skipWs_cons_of_not_ws (by decide)]
    rfl
  | cons x xs ih =>
    intro f rest hok hsz
    have hok2 : jsonOK x = true ∧ jsonOKList xs = true := by
      simpa [jsonOKList, Bool.and_eq_true] using hok
    obtain ⟨f', rfl⟩ : ∃ f', f = f' + 1 :=
      ⟨f - 1, by
        have := jsize_pos x
        have := jsizeList_pos xs
        simp only [jsizeList] at hsz
        omega⟩
    have hsx : jsize x ≤ f' := by
      have := jsizeList_pos xs
      simp only [jsizeList] at hsz
      omega
    have hsxs : jsizeList xs ≤ f' := by
      have := jsize_pos x
      simp only [jsizeList] at hsz
      omega
    rw [show joinTail (x :: xs) ++ '\n' :: ']' :: rest =
        '\n' :: ',' :: '\n' :: (dumpsVal 0 x ++ (joinTail xs ++ '\n' :: ']' :: rest)) from by
      simp [joinTail, List.append_assoc]]
    rw [skipWs_cons_of_ws (by decide), skipWs_cons_of_not_ws (by decide)]
    rw [parseArrRest_comma]
    rw [skipWs_cons_of_ws (by decide)]
    obtain ⟨c, z, hdx, hws, hrb, hcb⟩ := dumpsVal_cons 0 x
    rw [hdx, List.cons_append, skipWs_cons_of_not_ws hws, ← List.cons_append, ← hdx]
    have hT : goodTail (joinTail xs ++ '\n' :: ']' :: rest) := by
      cases xs <;> exact goodTail_newline _
    simp only [(parse_dumps f').1 x 0 (joinTail xs ++ '\n' :: ']' :: rest) hok2.1 hsx hT,
      ih f' rest hok2.2 hsxs]

theorem pyLoads_renderFile (e : Json) (es : List Json) (hok : jsonOKList (e :: es) = true) :
    pyLoads (renderFile ((e :: es).map (dumpsVal 0))) = some (.arr (e :: es)) := by
  have hok2 : jsonOK e = true ∧ jsonOKList es = true := by
    simpa [jsonOKList, Bool.and_eq_true] using hok
  have hJ : renderFile ((e :: es).map (dumpsVal 0)) =
      '[' :: '\n' :: (dumpsVal 0 e ++ (joinTail es ++ '\n' :: ']' :: [])) := by
    simp [renderFile, joinEntries_writer, List.append_assoc]
  have hpe : parseVal ('[' :: '\n' :: (dumpsVal 0 e ++ (joinTail es ++ '\n' :: ']' :: []))).length
      (dumpsVal 0 e ++ (joinTail es ++ '\n' :: ']' :: [])) =
      some (e, joinTail es ++ '\n' :: ']' :: []) := by
    refine (parse_dumps _).1 e 0 _ hok2.1 ?_ ?_
    · have h1 := (size_le_dumps (jsize e)).1 e 0 le_rfl
      simp only [List.length_cons, List.length_append]
      omega
    · cases es <;> exact goodTail_newline _
  have hpa : parseArrRest ('[' :: '\n' :: (dumpsVal 0 e ++ (joinTail es ++ '\n' :: ']' :: []))).length
      (skipWs (joinTail es ++ '\n' :: ']' :: [])) = some (es, []) := by
    refine parse_joinTail es _ [] hok2.2 ?_
    have h2 := jsizeList_le_joinTail es
    simp only [List.length_cons, List.length_append]
    omega
  obtain ⟨c, z, hdx, hws, hrb, hcb⟩ := dumpsVal_cons 0 e
  have hscan : parseVal
      (('[' :: '\n' :: (dumpsVal 0 e ++ (joinTail es ++ '\n' :: ']' :: []))).length + 1)
      ('[' :: '\n' :: (dumpsVal 0 e ++ (joinTail es ++ '\n' :: ']' :: []))) =
      some (.arr (e :: es), []) := by
    rw [parseVal_lbrack]
    rw [skipWs_cons_of_ws (by decide)]
    rw [hdx, List.cons_append, skipWs_cons_of_not_ws hws]
    rw [hdx, List.cons_append] at hpe hpa
    split
    · next r heq =>
      exact absurd (by injection heq with h1 _) hrb
    · next hne =>
      simp only [hpe, hpa]
  simp only [pyLoads]
  rw [hJ]
  rw [skipWs_cons_of_not_ws (by decide)]
  rw [hscan]
  simp [skipWs]

/-- C3 (writer validity): starting from a nonexistent or empty result
file, every sequence of `write_to_json` appends succeeds, and after each
append the file contents parse, exactly as `json.load` would parse them,
as the JSON array of the entries appended so far in order — so the array
length equals the number of appends.  Quantifying over every nonempty
`es` gives the after-each-call reading (after zero calls the claim is
vacuous); entries range over the modelled JSON fragment. -/
theorem claim_c3 (es : List Json) (hne : es ≠ []) (hok : jsonOKList es = true) :
    ∃ f, write_sequence es = some f ∧ pyLoads f = some (.arr es) := by
  obtain ⟨e, es', rfl⟩ := List.exists_cons_of_ne_nil hne
  exact ⟨_, write_sequence_eq e es', pyLoads_renderFile e es' hok⟩

theorem claim_c3_witness :
    ∃ f, write_sequence [Json.num 7, Json.bool true] = some f ∧
      pyLoads f = some (.arr [Json.num 7, Json.bool true]) :=
  claim_c3 [Json.num 7, Json.bool true] (by simp) (by rfl)


/-- The decoder yields nothing on empty input, at any fuel. -/
theorem parseVal_nil : ∀ f, parseVal f ([] : List Char) = none := by
  intro f; cases f <;> rfl

/-- Fuel monotonicity: a successful parse at some fuel succeeds
identically at any larger fuel. -/
theorem parse_mono : ∀ f : Nat,
    (∀ cs out, parseVal f cs = some out → ∀ g, f ≤ g → parseVal g cs = some out) ∧
    (∀ cs out, parseArrRest f cs = some out → ∀ g, f ≤ g → parseArrRest g cs = some out) ∧
    (∀ cs out, parseMember f cs = some out → ∀ g, f ≤ g → parseMember g cs = some out) ∧
    (∀ cs out, parseObjRest f cs = some out → ∀ g, f ≤ g → parseObjRest g cs = some out) := by
  intro f
  induction f using Nat.strong_induction_on with
  | _ f ih =>
  cases f with
  | zero =>
    refine ⟨?_, ?_, ?_, ?_⟩ <;> intro cs out h g hle <;>
      exact Option.noConfusion h
  | succ f =>
  obtain ⟨ihv, iha, ihm, iho⟩ := ih f (Nat.lt_succ_self f)
  refine ⟨?_, ?_, ?_, ?_⟩
  · intro cs out h g hle
    obtain ⟨g', rfl⟩ : ∃ g', g = g' + 1 := ⟨g - 1, by omega⟩
    have hfg : f ≤ g' := by omega
    cases cs with
    | nil => rw [parseVal_nil] at h; exact Option.noConfusion h
    | cons c cs =>
      simp only [parseVal] at h ⊢
      split_ifs at h ⊢
      · exact h
      · exact h
      · exact h
      · exact h
      · exact h
      · exact h
      · -- c = '['
        split at h
        · exact h
        · next hne =>
          cases hpv : parseVal f (skipWs cs) with
          | none => simp only [hpv] at h; exact Option.noConfusion h
          | some p =>
            obtain ⟨v, r⟩ := p
            simp only [hpv] at h
            cases hpa : parseArrRest f (skipWs r) with
            | none => simp only [hpa] at h; exact Option.noConfusion h
            | some q =>
              obtain ⟨vs, r2⟩ := q
              simp only [hpa] at h
              simp only [ihv (skipWs cs) (v, r) hpv g' hfg,
                iha (skipWs r) (vs, r2) hpa g' hfg]
              exact h
      · -- c = '{'
        split at h
        · exact h
        · next hne =>
          cases hpv : parseMember f (skipWs cs) with
          | none => simp only [hpv] at h; exact Option.noConfusion h
          | some p =>
            obtain ⟨kv, r⟩ := p
            simp only [hpv] at h
            cases hpa : parseObjRest f (skipWs r) with
            | none => simp only [hpa] at h; exact Option.noConfusion h
            | some q =>
              obtain ⟨kvs, r2⟩ := q
              simp only [hpa] at h
              simp only [ihm (skipWs cs) (kv, r) hpv g' hfg,
                iho (skipWs r) (kvs, r2) hpa g' hfg]
              exact h
  · intro cs out h g hle
    obtain ⟨g', rfl⟩ : ∃ g', g = g' + 1 := ⟨g - 1, by omega⟩
    have hfg : f ≤ g' := by omega
    rw [parseArrRest.eq_def] at h
    split at h
    · exact Option.noConfusion h
    · next r heq =>
      rw [show parseArrRest (g' + 1) (']' :: r) = some ([], r) from rfl]
      exact h
    · next f0 r heq =>
      rw [show f0 = f from by omega] at h
      rw [parseArrRest_comma]
      cases hpv : parseVal f (skipWs r) with
      | none => simp only [hpv] at h; exact Option.noConfusion h
      | some p =>
        obtain ⟨v, r1⟩ := p
        simp only [hpv] at h
        cases hpa : parseArrRest f (skipWs r1) with
        | none => simp only [hpa] at h; exact Option.noConfusion h
        | some q =>
          obtain ⟨vs, r2⟩ := q
          simp only [hpa] at h
          simp only [ihv (skipWs r) (v, r1) hpv g' hfg,
            iha (skipWs r1) (vs, r2) hpa g' hfg]
          exact h
    · exact Option.noConfusion h
  · intro cs out h g hle
    obtain ⟨g', rfl⟩ : ∃ g', g = g' + 1 := ⟨g - 1, by omega⟩
    have hfg : f ≤ g' := by omega
    rw [parseMember.eq_def] at h
    split at h
    · exact Option.noConfusion h
    · next f0 cs1 heq =>
      rw [show f0 = f from by omega] at h
      rw [parseMember_quote]
      cases hps : parseStrRest cs1 with
      | none => simp only [hps] at h; exact Option.noConfusion h
      | some p =>
        obtain ⟨k, r⟩ := p
        simp only [hps] at h
        split at h
        · next r1 heq2 =>
          simp only [heq2]
          cases hpv : parseVal f (skipWs r1) with
          | none => simp only [hpv] at h; exact Option.noConfusion h
          | some q =>
            obtain ⟨v, r2⟩ := q
            simp only [hpv] at h
            simp only [ihv (skipWs r1) (v, r2) hpv g' hfg]
            exact h
        · exact Option.noConfusion h
    · exact Option.noConfusion h
  · intro cs out h g hle
    obtain ⟨g', rfl⟩ : ∃ g', g = g' + 1 := ⟨g - 1, by omega⟩
    have hfg : f ≤ g' := by omega
    rw [parseObjRest.eq_def] at h
    split at h
    · exact Option.noConfusion h
    · next r heq =>
      rw [show parseObjRest (g' + 1) ('}' :: r) = some ([], r) from rfl]
      exact h
    · next f0 r heq =>
      rw [show f0 = f from by omega] at h
      rw [parseObjRest_comma]
      cases hpv : parseMember f (skipWs r) with
      | none => simp only [hpv] at h; exact Option.noConfusion h
      | some p =>
        obtain ⟨kv, r1⟩ := p
        simp only [hpv] at h
        cases hpa : parseObjRest f (skipWs r1) with
        | none => simp only [hpa] at h; exact Option.noConfusion h
        | some q =>
          obtain ⟨kvs, r2⟩ := q
          simp only [hpa] at h
          simp only [ihm (skipWs r) (kv, r1) hpv g' hfg,
            iho (skipWs r1) (kvs, r2) hpa g' hfg]
          exact h
    · exact Option.noConfusion h

/-- The decoder rejects an input starting with a closing bracket. -/
theorem parseVal_rbrack (f : Nat) (r : List Char) : parseVal f (']' :: r) = none := by
  cases f <;> rfl

/-- Each parsed array element consumes at least one unit of fuel. -/
theorem parseArrRest_len : ∀ (f : Nat) (cs : List Char) (vs : List Json) (r2 : List Char),
    parseArrRest f cs = some (vs, r2) → vs.length < f := by
  intro f
  induction f with
  | zero => intro cs vs r2 h; exact Option.noConfusion h
  | succ f ih =>
    intro cs vs r2 h
    rw [parseArrRest.eq_def] at h
    split at h
    · exact Option.noConfusion h
    · next r heq =>
      simp only [Option.some.injEq, Prod.mk.injEq] at h
      obtain ⟨h1, h2⟩ := h
      subst h1
      simp
    · next f0 r heq =>
      rw [show f0 = f from by omega] at h
      cases hpv : parseVal f (skipWs r) with
      | none => simp only [hpv] at h; exact Option.noConfusion h
      | some p =>
        obtain ⟨v, r1⟩ := p
        simp only [hpv] at h
        cases hpa : parseArrRest f (skipWs r1) with
        | none => simp only [hpa] at h; exact Option.noConfusion h
        | some q =>
          obtain ⟨vs0, rr⟩ := q
          simp only [hpa] at h
          simp only [Option.some.injEq, Prod.mk.injEq] at h
          obtain ⟨h1, h2⟩ := h
          subst h1
          have := ih (skipWs r1) vs0 rr hpa
          simp only [List.length_cons]
          omega
    · exact Option.noConfusion h

/-- Unfolding equation for one iteration of the streaming loop. -/
theorem streamLoop_succ (pf f : Nat) (content : List Char) (acc : List Json) :
    streamLoop pf (f + 1) content acc =
      (match content with
       | [] => .ok acc.reverse
       | _ =>
         match parseVal pf content with
         | some (obj, rest) =>
           let c1 := skipWs rest
           let c2 := match c1 with
             | ',' :: t => skipWs t
             | _ => c1
           match c2 with
           | ']' :: _ => .ok (obj :: acc).reverse
           | _ => streamLoop pf f c2 (obj :: acc)
         | none =>
           match content with
           | ']' :: _ => .ok acc.reverse
           | _ => .error "decode error") := rfl

/-- Simulation: positioned at the start of an element that `raw_decode`
accepts, and whose following elements `parseArrRest` accepts, the
streaming loop yields the accumulator followed by all those elements. -/
theorem streamLoop_sim : ∀ (vs : List Json) (v : Json) (f pf lf : Nat)
    (C r : List Char) (acc : List Json) (r2 : List Char),
    parseVal f C = some (v, r) →
    parseArrRest f (skipWs r) = some (vs, r2) →
    f ≤ pf → vs.length + 1 ≤ lf →
    streamLoop pf lf C acc = .ok (acc.reverse ++ v :: vs) := by
  intro vs
  induction vs with
  | nil =>
    intro v f pf lf C r acc r2 hpv hpa hfpf hlf
    obtain ⟨lf', rfl⟩ : ∃ lf', lf = lf' + 1 := ⟨lf - 1, by omega⟩
    cases hC : C with
    | nil => rw [hC, parseVal_nil] at hpv; exact Option.noConfusion hpv
    | cons d ds =>
      rw [hC] at hpv
      have hpvpf : parseVal pf (d :: ds) = some (v, r) :=
        (parse_mono f).1 (d :: ds) (v, r) hpv pf hfpf
      rw [parseArrRest.eq_def] at hpa
      split at hpa
      · exact Option.noConfusion hpa
      · next u hequ =>
        simp only [Option.some.injEq, Prod.mk.injEq] at hpa
        rw [streamLoop_succ]
        simp only [hpvpf, hequ]
        show Except.ok (v :: acc).reverse = Except.ok (acc.reverse ++ [v])
        rw [List.reverse_cons]
      · next f0 t heq =>
        cases hpv1 : parseVal f0 (skipWs t) with
        | none => simp only [hpv1] at hpa; exact Option.noConfusion hpa
        | some p =>
          obtain ⟨w, r1⟩ := p
          simp only [hpv1] at hpa
          cases hpa2 : parseArrRest f0 (skipWs r1) with
          | none => simp only [hpa2] at hpa; exact Option.noConfusion hpa
          | some q =>
            obtain ⟨ws, rr⟩ := q
            simp only [hpa2] at hpa
            simp only [Option.some.injEq, Prod.mk.injEq] at hpa
            exact absurd hpa.1 (by simp)
      · exact Option.noConfusion hpa
  | cons v1 vs1 ih =>
    intro v f pf lf C r acc r2 hpv hpa hfpf hlf
    obtain ⟨lf', rfl⟩ : ∃ lf', lf = lf' + 1 := ⟨lf - 1, by omega⟩
    cases hC : C with
    | nil => rw [hC, parseVal_nil] at hpv; exact Option.noConfusion hpv
    | cons d ds =>
      rw [hC] at hpv
      have hpvpf : parseVal pf (d :: ds) = some (v, r) :=
        (parse_mono f).1 (d :: ds) (v, r) hpv pf hfpf
      rw [parseArrRest.eq_def] at hpa
      split at hpa
      · exact Option.noConfusion hpa
      · next u hequ =>
        simp only [Option.some.injEq, Prod.mk.injEq] at hpa
        exact absurd hpa.1 (by simp)
      · next f0 t heq =>
        have hf0pf : f0 ≤ pf := by omega
        cases hpv1 : parseVal f0 (skipWs t) with
        | none => simp only [hpv1] at hpa; exact Option.noConfusion hpa
        | some p =>
          obtain ⟨w, r1⟩ := p
          simp only [hpv1] at hpa
          cases hpa2 : parseArrRest f0 (skipWs r1) with
          | none => simp only [hpa2] at hpa; exact Option.noConfusion hpa
          | some q =>
            obtain ⟨ws, rr⟩ := q
            simp only [hpa2] at hpa
            simp only [Option.some.injEq, Prod.mk.injEq] at hpa
            obtain ⟨h1, h2⟩ := hpa
            injection h1 with hw hws
            rw [hw] at hpv1
            rw [hws, h2] at hpa2
            rw [streamLoop_succ]
            simp only [hpvpf]
            rw [heq]
            show (match skipWs t with
                  | ']' :: tail => Except.ok (v :: acc).reverse
                  | x => streamLoop pf lf' (skipWs t) (v :: acc)) =
              Except.ok (acc.reverse ++ v :: v1 :: vs1)
            cases hst : skipWs t with
            | nil => rw [hst, parseVal_nil] at hpv1; exact Option.noConfusion hpv1
            | cons e es =>
              have hene : e ≠ ']' := by
                intro he
                subst he
                rw [hst, parseVal_rbrack] at hpv1
                exact Option.noConfusion hpv1
              rw [hst] at hpv1
              split
              · next u2 hequ2 =>
                exact absurd (by injection hequ2 with a b) hene
              · next hne2 =>
                rw [ih v1 f0 pf lf' (e :: es) r1 (v :: acc) r2 hpv1 hpa2 hf0pf
                  (by simp only [List.length_cons] at hlf ⊢; omega)]
                simp [List.reverse_cons, List.append_assoc]
      · exact Option.noConfusion hpa

/-- C4 (corrected: the claim holds only for array files whose first
character is `[`, since `stream_json_data` checks `file.read(1) == '['`
literally while `json.load` skips leading whitespace): for every file
contents that full-file parsing (`json.load`) reads as a JSON array, the
streaming reader yields exactly the same elements in order, and
`load_json_data` is precisely the drained streaming reader. -/
theorem claim_c4 (content : List Char) (xs : List Json)
    (h1 : content.head? = some '[')
    (h2 : pyLoads content = some (.arr xs)) :
    stream_json_data content = .ok xs ∧
    load_json_data content = stream_json_data content := by
  refine ⟨?_, rfl⟩
  cases content with
  | nil => exact Option.noConfusion h1
  | cons c rest =>
    have hc : c = '[' := by
      simp only [List.head?_cons, Option.some.injEq] at h1
      exact h1
    subst hc
    simp only [pyLoads] at h2
    rw [skipWs_cons_of_not_ws (by decide)] at h2
    rw [show stream_json_data ('[' :: rest) =
        streamLoop (('[' :: rest).length + 1) (('[' :: rest).length + 1) (skipWs rest) []
      from rfl]
    cases hpv : parseVal (('[' :: rest).length + 1) ('[' :: rest) with
    | none => rw [hpv] at h2; exact Option.noConfusion h2
    | some p =>
      obtain ⟨v, r⟩ := p
      simp only [hpv] at h2
      by_cases hz : skipWs r = []
      · rw [if_pos hz] at h2
        injection h2 with hv
        rw [parseVal_lbrack] at hpv
        split at hpv
        · next u hequ =>
          simp only [Option.some.injEq, Prod.mk.injEq] at hpv
          obtain ⟨hx, hu⟩ := hpv
          have hxs : xs = [] := by
            rw [hv] at hx
            injection hx with hh
            exact hh.symm
          subst hxs
          rw [hequ]
          rw [streamLoop_succ]
          simp only [parseVal_rbrack]
          rfl
        · next hne =>
          cases hpv1 : parseVal (('[' :: rest).length) (skipWs rest) with
          | none => simp only [hpv1] at hpv; exact Option.noConfusion hpv
          | some p1 =>
            obtain ⟨v0, r0⟩ := p1
            simp only [hpv1] at hpv
            cases hpa : parseArrRest (('[' :: rest).length) (skipWs r0) with
            | none => simp only [hpa] at hpv; exact Option.noConfusion hpv
            | some q =>
              obtain ⟨vs, r2⟩ := q
              simp only [hpa] at hpv
              simp only [Option.some.injEq, Prod.mk.injEq] at hpv
              obtain ⟨hx, hr⟩ := hpv
              have hxs : xs = v0 :: vs := by
                rw [hv] at hx
                injection hx with hh
                exact hh.symm
              subst hxs
              have hlen := parseArrRest_len _ _ _ _ hpa
              exact streamLoop_sim vs v0 (('[' :: rest).length) (('[' :: rest).length + 1)
                (('[' :: rest).length + 1) (skipWs rest) r0 [] r2 hpv1 hpa (by omega)
                (by omega)
      · rw [if_neg hz] at h2
        exact Option.noConfusion h2

theorem claim_c4_witness :
    ("[1, 2]".data.head? = some '[') ∧
    pyLoads "[1, 2]".data = some (.arr [Json.num 1, Json.num 2]) ∧
    stream_json_data "[1, 2]".data = .ok [Json.num 1, Json.num 2] :=
  ⟨rfl, rfl, (claim_c4 "[1, 2]".data [Json.num 1, Json.num 2] rfl rfl).1⟩

/-- C4 counterexample: a file whose array is preceded by a space is a
valid JSON array file for `json.load`, yet `stream_json_data` raises,
because its first `file.read(1)` is not `[`.  So streaming equivalence
fails for some valid JSON array files. -/
theorem claim_c4_counterexample :
    pyLoads " []".data = some (.arr []) ∧
    ∃ e, stream_json_data " []".data = .error e :=
  ⟨rfl, ⟨"not an array", rfl⟩⟩

end LH
